import Mathlib

/-!
# interface-json-schema: a shallow embedding of `main.go`

The program parses one Go source file, walks its top-level interface type
declarations and prints one function-call schema per interface method.

The embedding follows `main.go` function by function:

* `paramTypeToString`, `getCommentText`, `mapCommentsByLine` are the three
  helper functions of the source, under their own names;
* `main` is the source's `main`, with its three nested `for` loops rendered
  as the recursive functions `paramsLoop`, `methodsLoop`, `specsLoop` and
  `declsLoop`.

What the source takes from the Go standard library is modelled as follows.

* `go/ast` nodes are the inductive types `Expr`, `Field`, `Spec`, `Decl`, `File`;
  a `token.Pos` is a natural number.
* `fileSet.Position(p).Line` is the field `Line` of `FileSet`.
* `map[K]V` is `GoMap K V`, an association list with at most one entry per
  key; reading an absent key gives the zero value.
* `strings.TrimPrefix`, `strings.TrimSpace` and `strings.Join` are defined on
  the characters of a string.
* `parser.ParseFile` is a parameter of `main`.
* `json.MarshalIndent` cannot fail on a `JSONSchema` (strings, booleans, a
  string-keyed map and a string slice), so a printed document is recorded as
  the `JSONSchema` value handed to the encoder.
-/

namespace InterfaceJsonSchema

/-! ## Strings (package `strings`) -/

/-- White space as `unicode.IsSpace` defines it, which `strings.TrimSpace` uses. -/
def isSpace (c : Char) : Bool :=
  let n := c.toNat
  n == 0x09 || n == 0x0A || n == 0x0B || n == 0x0C || n == 0x0D || n == 0x20 ||
  n == 0x85 || n == 0xA0 || n == 0x1680 || (0x2000 ≤ n && n ≤ 0x200A) ||
  n == 0x2028 || n == 0x2029 || n == 0x202F || n == 0x205F || n == 0x3000

/-- The characters of `s` after the leading `pre`, when `s` starts with `pre`. -/
def stripPrefix : List Char → List Char → Option (List Char)
  | s, [] => some s
  | [], _ :: _ => none
  | c :: s, p :: pre => if c = p then stripPrefix s pre else none

/-- Go `strings.TrimPrefix(s, prefix)`: `s` without the leading `prefix`, or
`s` itself when it does not start with `prefix`. -/
def TrimPrefix (s pre : String) : String :=
  match stripPrefix s.data pre.data with
  | some rest => ⟨rest⟩
  | none => s

/-- Go `strings.TrimSpace(s)`: `s` without its leading and trailing white space. -/
def TrimSpace (s : String) : String :=
  ⟨((s.data.dropWhile isSpace).reverse.dropWhile isSpace).reverse⟩

/-- Go `strings.Join(elems, sep)`. -/
def Join : List String → String → String
  | [], _ => ""
  | [s], _ => s
  | s :: t :: rest, sep => s ++ sep ++ Join (t :: rest) sep

/-! ## Maps -/

/-- A Go `map[K]V`: an association list that holds at most one entry per key. -/
abbrev GoMap (K V : Type) := List (K × V)

namespace GoMap

variable {K V : Type} [DecidableEq K]

/-- Go `make(map[K]V)`. -/
def empty : GoMap K V := []

/-- Go `m[k] = v`: overwrite the entry of `k` in place, or add one. -/
def set : GoMap K V → K → V → GoMap K V
  | [], k, v => [(k, v)]
  | (k', v') :: m, k, v => if k' = k then (k, v) :: m else (k', v') :: set m k v

/-- The entry of `k`, when the map has one. -/
def find? : GoMap K V → K → Option V
  | [], _ => none
  | (k', v') :: m, k => if k' = k then some v' else find? m k

/-- Go `m[k]`: the value stored at `k`, or the zero value of `V`. -/
def get [Inhabited V] (m : GoMap K V) (k : K) : V :=
  (find? m k).getD default

/-- The keys of the map. -/
def keys (m : GoMap K V) : List K := m.map Prod.fst

end GoMap

/-! ## Syntax trees (packages `go/token` and `go/ast`) -/

/-- A `token.Pos`; `0` is `token.NoPos`. -/
abbrev Pos := Nat

/-- A `token.FileSet`, as far as the program uses it: `Line p` is
`fileSet.Position(p).Line`. -/
structure FileSet where
  Line : Pos → Nat

/-- Go `ast.Comment`: `Slash` is the position of the `/` that starts the
comment, `Text` the comment text with its marker (`//...` or `/*...*/`). -/
structure Comment where
  Slash : Pos
  Text : String
  deriving DecidableEq, Repr

/-- Go `ast.CommentGroup`. -/
structure CommentGroup where
  List : List Comment
  deriving DecidableEq, Repr

/-- Go `ast.Ident`. -/
structure Ident where
  NamePos : Pos
  Name : String
  deriving DecidableEq, Repr

mutual
/-- Go `ast.Expr`: one constructor per expression node type of `go/ast`
(function literal bodies and tokens left out). -/
inductive Expr where
  | BadExpr
  | Ident (id : Ident)
  | Ellipsis (Elt : Option Expr)
  | BasicLit (Value : String)
  | FuncLit (Typ : Expr)
  | CompositeLit (Typ : Option Expr) (Elts : List Expr)
  | ParenExpr (X : Expr)
  | SelectorExpr (X : Expr) (Sel : Ident)
  | IndexExpr (X Index : Expr)
  | IndexListExpr (X : Expr) (Indices : List Expr)
  | SliceExpr (X : Expr) (Low High Max : Option Expr)
  | TypeAssertExpr (X : Expr) (Typ : Option Expr)
  | CallExpr (Fun : Expr) (Args : List Expr)
  | StarExpr (X : Expr)
  | UnaryExpr (X : Expr)
  | BinaryExpr (X Y : Expr)
  | KeyValueExpr (Key Value : Expr)
  | ArrayType (Len : Option Expr) (Elt : Expr)
  | StructType (Fields : List Field)
  | FuncType (Params : List Field) (Results : List Field)
  | InterfaceType (Methods : List Field)
  | MapType (Key Value : Expr)
  | ChanType (Value : Expr)
/-- Go `ast.Field`: a parameter or result of a signature, a method or an
embedded element of an interface, a field of a struct. -/
inductive Field where
  | mk (Doc : Option CommentGroup) (Names : List Ident) (Typ : Expr)
end

/-- The documentation group of a field (`field.Doc`, `nil` as `none`). -/
def Field.Doc : Field → Option CommentGroup
  | .mk d _ _ => d

/-- The names of a field (`field.Names`). -/
def Field.Names : Field → List Ident
  | .mk _ n _ => n

/-- The type of a field (`field.Type`; `Type` is reserved in Lean). -/
def Field.Typ : Field → Expr
  | .mk _ _ t => t

/-- Go `token.Token`, the keywords that open a general declaration. -/
inductive Token where
  | IMPORT | CONST | TYPE | VAR
  deriving DecidableEq, Repr

/-- Go `ast.Spec`. -/
inductive Spec where
  | ImportSpec (Path : String)
  | ValueSpec (Names : List Ident)
  | TypeSpec (Name : Ident) (Typ : Expr)

/-- Go `ast.Decl`. -/
inductive Decl where
  | BadDecl
  | GenDecl (Tok : Token) (Specs : List Spec)
  | FuncDecl (Name : Ident) (Typ : Expr)

/-- Go `ast.File`, as far as the program reads it. -/
structure File where
  Decls : List Decl
  Comments : List CommentGroup

/-! ## The schema records of `main.go` -/

/-- Struct `Property`. -/
structure Property where
  Typ : String
  Description : String
  Enum : List String
  deriving DecidableEq, Repr, Inhabited

/-- Struct `ParameterSchema`. -/
structure ParameterSchema where
  Typ : String
  Properties : GoMap String Property
  Required : List String
  AdditionalProperties : Bool
  deriving DecidableEq, Repr

/-- Struct `FunctionSchema`. -/
structure FunctionSchema where
  Name : String
  Description : String
  Parameters : ParameterSchema
  Strict : Bool
  deriving DecidableEq, Repr

/-- Struct `JSONSchema`. -/
structure JSONSchema where
  Typ : String
  Function : FunctionSchema
  deriving DecidableEq, Repr

/-! ## The helper functions of `main.go` -/

/-- Function `paramTypeToString` of `main.go`. -/
def paramTypeToString : Expr → String
  | .Ident t => t.Name
  | .ArrayType _ _ => "array"
  | .MapType _ _ => "object"
  | .StarExpr X => paramTypeToString X
  | _ => "unknown"

/-- Function `getCommentText` of `main.go`. -/
def getCommentText : Option CommentGroup → String
  | none => ""
  | some commentGroup =>
    Join (commentGroup.List.map fun comment => TrimSpace (TrimPrefix comment.Text "//")) " "

/-- The inner loop of `mapCommentsByLine`, over the comments of one group. -/
def mapCommentsGroup (fileSet : FileSet) : List Comment → GoMap Nat String → GoMap Nat String
  | [], comments => comments
  | comment :: rest, comments =>
    let line := fileSet.Line comment.Slash
    mapCommentsGroup fileSet rest (comments.set line (TrimSpace (TrimPrefix comment.Text "//")))

/-- The outer loop of `mapCommentsByLine`, over the comment groups. -/
def mapCommentsGroups (fileSet : FileSet) : List CommentGroup → GoMap Nat String → GoMap Nat String
  | [], comments => comments
  | group :: rest, comments =>
    mapCommentsGroups fileSet rest (mapCommentsGroup fileSet group.List comments)

/-- Function `mapCommentsByLine` of `main.go`. -/
def mapCommentsByLine (commentGroups : List CommentGroup) (fileSet : FileSet) : GoMap Nat String :=
  mapCommentsGroups fileSet commentGroups GoMap.empty

/-! ## Function `main` of `main.go` -/

/-- What one pass of the parameter loop leaves behind: the `parameters` map
and the `required` slice. -/
structure Collected where
  parameters : GoMap String Property
  required : List String
  deriving DecidableEq, Repr

/-- The loop `for _, param := range funcType.Params.List` of `main`, from the
state `acc`. The result is `none` when `param.Names[0]` is evaluated on an
empty `Names`: the index is out of range and the program panics. `param.Pos()`
is the position of `param.Names[0]` there. -/
def paramsLoop (fileSet : FileSet) (comments : GoMap Nat String) :
    List Field → Collected → Option Collected
  | [], acc => some acc
  | param :: rest, acc =>
    match param.Names with
    | [] => none
    | name0 :: _ =>
      let paramName := name0.Name
      let paramType := paramTypeToString param.Typ
      let paramLine := fileSet.Line name0.NamePos
      let paramDescription := comments.get paramLine
      paramsLoop fileSet comments rest
        { parameters := acc.parameters.set paramName
            { Typ := paramType, Description := paramDescription, Enum := [] }
          required := acc.required ++ [paramName] }

/-- How one iteration of the method loop ends. -/
inductive Step where
  | skip
  | emit (schema : JSONSchema)
  | panic
  deriving DecidableEq, Repr

/-- The body of the loop `for _, method := range interfaceType.Methods.List`
of `main`: `skip` is a `continue`, `emit schema` the `fmt.Println` of the
encoded `schema`, `panic` the run-time panic of the parameter loop. -/
def methodBody (fileSet : FileSet) (comments : GoMap Nat String) (method : Field) : Step :=
  match method.Names with
  | [] => .skip
  | name0 :: _ =>
    let methodName := name0.Name
    match method.Typ with
    | .FuncType Params _ =>
      match paramsLoop fileSet comments Params { parameters := GoMap.empty, required := [] } with
      | none => .panic
      | some acc =>
        let methodDescription := getCommentText method.Doc
        .emit
          { Typ := "function"
            Function :=
              { Name := methodName
                Description := methodDescription
                Parameters :=
                  { Typ := "object"
                    Properties := acc.parameters
                    Required := acc.required
                    AdditionalProperties := false }
                Strict := true } }
    | _ => .skip

/-- The documents a loop has printed, in order, and whether it ended in a panic. -/
structure Emitted where
  docs : List JSONSchema
  panicked : Bool
  deriving DecidableEq, Repr

/-- Run `a`, then `b` unless `a` ended in a panic. -/
def Emitted.andThen (a b : Emitted) : Emitted :=
  if a.panicked then a else { docs := a.docs ++ b.docs, panicked := b.panicked }

/-- The loop `for _, method := range interfaceType.Methods.List` of `main`. -/
def methodsLoop (fileSet : FileSet) (comments : GoMap Nat String) : List Field → Emitted
  | [] => { docs := [], panicked := false }
  | method :: rest =>
    match methodBody fileSet comments method with
    | .skip => methodsLoop fileSet comments rest
    | .panic => { docs := [], panicked := true }
    | .emit schema =>
      Emitted.andThen { docs := [schema], panicked := false } (methodsLoop fileSet comments rest)

/-- The loop `for _, spec := range genDecl.Specs` of `main`. -/
def specsLoop (fileSet : FileSet) (comments : GoMap Nat String) : List Spec → Emitted
  | [] => { docs := [], panicked := false }
  | spec :: rest =>
    match spec with
    | .TypeSpec _ (.InterfaceType Methods) =>
      (methodsLoop fileSet comments Methods).andThen (specsLoop fileSet comments rest)
    | _ => specsLoop fileSet comments rest

/-- The loop `for _, decl := range node.Decls` of `main`. -/
def declsLoop (fileSet : FileSet) (comments : GoMap Nat String) : List Decl → Emitted
  | [] => { docs := [], panicked := false }
  | decl :: rest =>
    match decl with
    | .GenDecl Tok Specs =>
      if Tok ≠ Token.TYPE then declsLoop fileSet comments rest
      else (specsLoop fileSet comments Specs).andThen (declsLoop fileSet comments rest)
    | _ => declsLoop fileSet comments rest

/-- One line the program writes to standard output. -/
inductive Printed where
  | usage
  | parseError (err : String)
  | document (schema : JSONSchema)
  deriving DecidableEq, Repr

/-- A run of the program: what it printed, and whether it ended in a panic
(exit status 2) or by returning from `main` (exit status 0). -/
structure Run where
  stdout : List Printed
  panicked : Bool
  deriving DecidableEq, Repr

/-- The exit status of a run. -/
def Run.exitCode (r : Run) : Nat := if r.panicked then 2 else 0

/-- The schema documents among the printed lines, in order. -/
def Run.documents (r : Run) : List JSONSchema :=
  r.stdout.filterMap fun
    | .document schema => some schema
    | _ => none

/-- Function `main` of `main.go`. `Args` is `os.Args`; `ParseFile path` is
`parser.ParseFile(fileSet, path, nil, parser.ParseComments)` on a fresh file
set: the error, or the file set and the syntax tree. -/
def main (Args : List String) (ParseFile : String → Except String (FileSet × File)) : Run :=
  match Args with
  | _ :: filePath :: _ =>
    match ParseFile filePath with
    | .error err => { stdout := [.parseError err], panicked := false }
    | .ok (fileSet, node) =>
      let comments := mapCommentsByLine node.Comments fileSet
      let r := declsLoop fileSet comments node.Decls
      { stdout := r.docs.map .document, panicked := r.panicked }
  | _ => { stdout := [.usage], panicked := false }

/-- The schema an iteration of the method loop prints, when it prints one. -/
def Step.schema? : Step → Option JSONSchema
  | .emit schema => some schema
  | _ => none

/-! ## Vocabulary of the specification -/

/-- The method list of a type specification whose type is an interface type. -/
def specMethods : Spec → List Field
  | .TypeSpec _ (.InterfaceType Methods) => Methods
  | _ => []

/-- The method lists of the interface types a top-level type declaration declares. -/
def declMethods : Decl → List Field
  | .GenDecl .TYPE Specs => (Specs.map specMethods).flatten
  | _ => []

/-- The method lists of the top-level interface type declarations, concatenated
in declaration order. -/
def interfaceMethods (node : File) : List Field :=
  (node.Decls.map declMethods).flatten

/-- An eligible method: a method-list entry with a name and a function type. -/
def isEligible (method : Field) : Bool :=
  match method.Names, method.Typ with
  | _ :: _, .FuncType _ _ => true
  | _, _ => false

/-- The eligible methods of a file, in declaration order. -/
def eligibleMethods (node : File) : List Field :=
  (interfaceMethods node).filter isEligible

/-- The name of a method-list entry: its first name. -/
def methodName (method : Field) : String :=
  match method.Names with
  | name0 :: _ => name0.Name
  | [] => ""

/-- The parameter fields of a method (`funcType.Params.List`). -/
def methodParams (method : Field) : List Field :=
  match method.Typ with
  | .FuncType Params _ => Params
  | _ => []

/-- Every name a parameter list declares, grouped names (`a, b int`) included. -/
def declaredNames (params : List Field) : List String :=
  (params.map fun param => param.Names.map Ident.Name).flatten

/-- The first name of every parameter field that has one. -/
def firstNames (params : List Field) : List String :=
  params.filterMap fun param => param.Names.head?.map Ident.Name

/-! ## Sample inputs

Each sample is the syntax tree `go/parser` builds for the quoted source, with
the byte offsets of the source as positions (offset `o` is position `o + 1`). -/

/-- The file set of one file at base 1 whose lines start at the byte offsets
`lines`: the line of a position is the number of line starts before it, and
`token.NoPos` has line 0. -/
def fileSetOfLines (lines : List Nat) : FileSet :=
  { Line := fun p => (lines.filter fun start => start < p).length }

/-- The arguments of the sample runs: the program name and one path. -/
def sampleArgs : List String := ["main", "input.go"]

/-- The line starts of `main.go`. -/
def mainGoLines : List Nat :=
  [0, 13, 14, 23, 43, 53, 66, 82, 97, 106, 120, 122, 123, 148, 204, 220, 288, 305, 307, 308,
   333, 375, 421, 423, 424, 453, 499, 552, 604, 652, 654, 655, 685, 744, 809, 872, 947, 949,
   950, 973, 1012, 1058, 1107, 1109, 1110, 1124, 1150, 1213, 1228, 1234, 1235, 1262, 1296,
   1376, 1396, 1444, 1459, 1465, 1466, 1524, 1525, 1563, 1606, 1652, 1673, 1683, 1684, 1729,
   1778, 1799, 1824, 1838, 1839, 1907, 1928, 1953, 1967, 1968, 2032, 2076, 2105, 2123, 2124,
   2175, 2235, 2260, 2289, 2307, 2308, 2364, 2403, 2464, 2517, 2580, 2648, 2708, 2762, 2810,
   2865, 2887, 2946, 2964, 2965, 3029, 3067, 3105, 3151, 3200, 3256, 3309, 3369, 3431, 3491,
   3548, 3575, 3613, 3636, 3654, 3655, 3725, 3757, 3820, 3847, 3865, 3866, 3912, 3926, 3936,
   3942, 3944, 3945, 3992, 4022, 4043, 4065, 4090, 4113, 4136, 4160, 4184, 4222, 4235, 4260,
   4266, 4268, 4269, 4330, 4359, 4377, 4383, 4409, 4457, 4552, 4558, 4597, 4599, 4600, 4699,
   4736, 4778, 4823, 4880, 4967, 4977, 4983, 5003]

/-- The file set of `main.go`. -/
def mainGoFileSet : FileSet := fileSetOfLines mainGoLines

/-- The method `GetWeather` of the interface `Weather` of `main.go` (lines 14 to 17). -/
def getWeatherMethod : Field :=
  .mk (some ⟨[⟨153, "// Retrieves current weather for the given location"⟩]⟩)
    [⟨209, "GetWeather"⟩]
    (.FuncType [.mk none [⟨229, "location"⟩] (.Ident ⟨238, "string"⟩)]
      [.mk none [⟨296, "temp"⟩] (.Ident ⟨301, "int"⟩)])

/-- The syntax tree of `main.go` itself: its import declaration, the interface
`Weather`, the four schema structs and the four functions (import paths
without their quotes). -/
def mainGoFile : File :=
  { Decls :=
      [ .GenDecl .IMPORT
          [.ImportSpec "encoding/json", .ImportSpec "fmt", .ImportSpec "go/ast",
           .ImportSpec "go/parser", .ImportSpec "go/token", .ImportSpec "os",
           .ImportSpec "strings"],
        .GenDecl .TYPE [.TypeSpec ⟨129, "Weather"⟩ (.InterfaceType [getWeatherMethod])],
        .GenDecl .TYPE
          [.TypeSpec ⟨314, "JSONSchema"⟩
            (.StructType
              [.mk none [⟨338, "Type"⟩] (.Ident ⟨347, "string"⟩),
               .mk none [⟨380, "Function"⟩] (.Ident ⟨389, "FunctionSchema"⟩)])],
        .GenDecl .TYPE
          [.TypeSpec ⟨430, "FunctionSchema"⟩
            (.StructType
              [.mk none [⟨458, "Name"⟩] (.Ident ⟨470, "string"⟩),
               .mk none [⟨504, "Description"⟩] (.Ident ⟨516, "string"⟩),
               .mk none [⟨557, "Parameters"⟩] (.Ident ⟨569, "ParameterSchema"⟩),
               .mk none [⟨609, "Strict"⟩] (.Ident ⟨621, "bool"⟩)])],
        .GenDecl .TYPE
          [.TypeSpec ⟨661, "ParameterSchema"⟩
            (.StructType
              [.mk none [⟨690, "Type"⟩] (.Ident ⟨711, "string"⟩),
               .mk none [⟨749, "Properties"⟩]
                 (.MapType (.Ident ⟨774, "string"⟩) (.Ident ⟨781, "Property"⟩)),
               .mk none [⟨814, "Required"⟩] (.ArrayType none (.Ident ⟨837, "string"⟩)),
               .mk none [⟨877, "AdditionalProperties"⟩] (.Ident ⟨898, "bool"⟩)])],
        .GenDecl .TYPE
          [.TypeSpec ⟨956, "Property"⟩
            (.StructType
              [.mk none [⟨978, "Type"⟩] (.Ident ⟨990, "string"⟩),
               .mk none [⟨1017, "Description"⟩] (.Ident ⟨1029, "string"⟩),
               .mk none [⟨1063, "Enum"⟩] (.ArrayType none (.Ident ⟨1077, "string"⟩))])],
        .FuncDecl ⟨1116, "main"⟩ (.FuncType [] []),
        .FuncDecl ⟨3951, "paramTypeToString"⟩
          (.FuncType
            [.mk none [⟨3969, "expr"⟩] (.SelectorExpr (.Ident ⟨3974, "ast"⟩) ⟨3978, "Expr"⟩)]
            [.mk none [] (.Ident ⟨3984, "string"⟩)]),
        .FuncDecl ⟨4275, "getCommentText"⟩
          (.FuncType
            [.mk none [⟨4290, "commentGroup"⟩]
              (.StarExpr (.SelectorExpr (.Ident ⟨4304, "ast"⟩) ⟨4308, "CommentGroup"⟩))]
            [.mk none [] (.Ident ⟨4322, "string"⟩)]),
        .FuncDecl ⟨4606, "mapCommentsByLine"⟩
          (.FuncType
            [.mk none [⟨4624, "commentGroups"⟩]
              (.ArrayType none
                (.StarExpr (.SelectorExpr (.Ident ⟨4641, "ast"⟩) ⟨4645, "CommentGroup"⟩))),
             .mk none [⟨4659, "fileSet"⟩]
               (.StarExpr (.SelectorExpr (.Ident ⟨4668, "token"⟩) ⟨4674, "FileSet"⟩))]
            [.mk none [] (.MapType (.Ident ⟨4687, "int"⟩) (.Ident ⟨4691, "string"⟩))]) ]
    Comments :=
      [ ⟨[⟨153, "// Retrieves current weather for the given location"⟩]⟩,
        ⟨[⟨246, "// City and country e.g. Bogotá, Colombia"⟩]⟩ ] }

/-- The parser on `main.go`. -/
def parseMainGo : String → Except String (FileSet × File) :=
  fun _ => .ok (mainGoFileSet, mainGoFile)

/-- The method `Add(a, b int) int` of the sample `pairFile`. -/
def addMethod : Field :=
  .mk none [⟨38, "Add"⟩]
    (.FuncType [.mk none [⟨42, "a"⟩, ⟨45, "b"⟩] (.Ident ⟨47, "int"⟩)]
      [.mk none [] (.Ident ⟨52, "int"⟩)])

/-- The syntax tree of the source
```
 1  package pair
 2
 3  type Pair interface {
 4  	Add(a, b int) int
 5  }
```
(numbered by line, indented by one tab): one parameter field declares the two names `a` and `b`. -/
def pairFile : File :=
  { Decls := [.GenDecl .TYPE [.TypeSpec ⟨20, "Pair"⟩ (.InterfaceType [addMethod])]]
    Comments := [] }

/-- The parser on the sample `pairFile`. -/
def parsePair : String → Except String (FileSet × File) :=
  fun _ => .ok (fileSetOfLines [0, 13, 14, 36, 55], pairFile)

/-- The method `Put(key string, value []byte)` of the sample `storeFile`. -/
def putMethod : Field :=
  .mk none [⟨40, "Put"⟩]
    (.FuncType
      [.mk none [⟨44, "key"⟩] (.Ident ⟨48, "string"⟩),
       .mk none [⟨56, "value"⟩] (.ArrayType none (.Ident ⟨64, "byte"⟩))]
      [])

/-- The method `Get(string) []byte` of the sample `storeFile`: its parameter has no name. -/
def getMethod : Field :=
  .mk none [⟨71, "Get"⟩]
    (.FuncType [.mk none [] (.Ident ⟨75, "string"⟩)]
      [.mk none [] (.ArrayType none (.Ident ⟨85, "byte"⟩))])

/-- The syntax tree of the source
```
 1  package store
 2
 3  type Store interface {
 4  	Put(key string, value []byte)
 5  	Get(string) []byte
 6  }
```
(numbered by line, indented by one tab). -/
def storeFile : File :=
  { Decls := [.GenDecl .TYPE [.TypeSpec ⟨21, "Store"⟩ (.InterfaceType [putMethod, getMethod])]]
    Comments := [] }

/-- The parser on the sample `storeFile`. -/
def parseStore : String → Except String (FileSet × File) :=
  fun _ => .ok (fileSetOfLines [0, 14, 15, 38, 69, 89], storeFile)

/-- The syntax tree of the source
```
 1  package misc
 2
 3  import "io"
 4
 5  type Celsius float64
 6
 7  type Reader interface {
 8  	io.Reader
 9  }
10
11  var Zero Celsius
12
13  func Noop() {}
```
(numbered by line, indented by one tab): an import, a type declaration that is no interface, an
interface with an embedded interface only, a variable and a function. -/
def miscFile : File :=
  { Decls :=
      [ .GenDecl .IMPORT [.ImportSpec "io"],
        .GenDecl .TYPE [.TypeSpec ⟨33, "Celsius"⟩ (.Ident ⟨41, "float64"⟩)],
        .GenDecl .TYPE
          [.TypeSpec ⟨55, "Reader"⟩
            (.InterfaceType [.mk none [] (.SelectorExpr (.Ident ⟨75, "io"⟩) ⟨78, "Reader"⟩)])],
        .GenDecl .VAR [.ValueSpec [⟨92, "Zero"⟩]],
        .FuncDecl ⟨111, "Noop"⟩ (.FuncType [] []) ]
    Comments := [] }

/-- The parser on the sample `miscFile`. -/
def parseMisc : String → Except String (FileSet × File) :=
  fun _ => .ok (fileSetOfLines [0, 13, 14, 26, 27, 48, 49, 73, 84, 86, 87, 104, 105], miscFile)

/-- The documentation block of the method `Send` of the sample `mailFile`. -/
def sendDoc : CommentGroup :=
  ⟨[⟨85, "// Send delivers a message."⟩, ⟨114, "//   It retries on failure."⟩,
    ⟨143, "//Returns the message id."⟩]⟩

/-- The method `Send` of the sample `mailFile`. -/
def sendMethod : Field :=
  .mk (some sendDoc) [⟨170, "Send"⟩]
    (.FuncType
      [.mk none [⟨178, "to"⟩] (.StarExpr (.Ident ⟨182, "Address"⟩)),
       .mk none [⟨206, "subject"⟩] (.Ident ⟨214, "string"⟩),
       .mk none [⟨224, "body"⟩] (.ArrayType none (.Ident ⟨231, "byte"⟩)),
       .mk none [⟨255, "headers"⟩] (.MapType (.Ident ⟨267, "string"⟩) (.Ident ⟨274, "string"⟩))]
      [.mk none [⟨286, "id"⟩] (.Ident ⟨289, "string"⟩),
       .mk none [⟨297, "err"⟩] (.Ident ⟨301, "error"⟩)])

/-- The method `Ping()` of the sample `mailFile`. -/
def pingMethod : Field :=
  .mk none [⟨309, "Ping"⟩] (.FuncType [] [])

/-- The syntax tree of the source
```
 1  package mail
 2
 3  import "io"
 4
 5  type Address string
 6
 7  type Mailer interface {
 8  	io.Closer
 9  	// Send delivers a message.
10  	//   It retries on failure.
11  	//Returns the message id.
12  	Send(
13  		to *Address, // recipient
14  		subject string,
15  		body []byte, /* raw bytes */
16  		headers map[string]string,
17  	) (id string, err error)
18  	Ping()
19  }
20
21  func New() Mailer { return nil }
```
(numbered by line, indented by tabs). -/
def mailFile : File :=
  { Decls :=
      [ .GenDecl .IMPORT [.ImportSpec "io"],
        .GenDecl .TYPE [.TypeSpec ⟨33, "Address"⟩ (.Ident ⟨41, "string"⟩)],
        .GenDecl .TYPE
          [.TypeSpec ⟨54, "Mailer"⟩
            (.InterfaceType
              [.mk none [] (.SelectorExpr (.Ident ⟨74, "io"⟩) ⟨77, "Closer"⟩),
               sendMethod, pingMethod])],
        .FuncDecl ⟨324, "New"⟩ (.FuncType [] [.mk none [] (.Ident ⟨330, "Mailer"⟩)]) ]
    Comments :=
      [ sendDoc, ⟨[⟨191, "// recipient"⟩]⟩, ⟨[⟨237, "/* raw bytes */"⟩]⟩ ] }

/-- The file set of the sample `mailFile`. -/
def mailFileSet : FileSet :=
  fileSetOfLines
    [0, 13, 14, 26, 27, 47, 48, 72, 83, 112, 141, 168, 175, 203, 221, 252, 281, 307, 315, 317, 318]

/-- The parser on the sample `mailFile`. -/
def parseMail : String → Except String (FileSet × File) :=
  fun _ => .ok (mailFileSet, mailFile)

/-- The schema of the method `Send` of the sample `mailFile`. -/
def sendSchema : JSONSchema :=
  { Typ := "function"
    Function :=
      { Name := "Send"
        Description := "Send delivers a message. It retries on failure. Returns the message id."
        Parameters :=
          { Typ := "object"
            Properties :=
              [("to", { Typ := "Address", Description := "recipient", Enum := [] }),
               ("subject", { Typ := "string", Description := "", Enum := [] }),
               ("body", { Typ := "array", Description := "/* raw bytes */", Enum := [] }),
               ("headers", { Typ := "object", Description := "", Enum := [] })]
            Required := ["to", "subject", "body", "headers"]
            AdditionalProperties := false }
        Strict := true } }

/-- The schema of the method `Ping` of the sample `mailFile`. -/
def pingSchema : JSONSchema :=
  { Typ := "function"
    Function :=
      { Name := "Ping"
        Description := ""
        Parameters :=
          { Typ := "object", Properties := [], Required := [], AdditionalProperties := false }
        Strict := true } }

/-- The schema of the method `GetWeather` of `main.go`. -/
def getWeatherSchema : JSONSchema :=
  { Typ := "function"
    Function :=
      { Name := "GetWeather"
        Description := "Retrieves current weather for the given location"
        Parameters :=
          { Typ := "object"
            Properties :=
              [("location",
                { Typ := "string"
                  Description := "City and country e.g. Bogotá, Colombia"
                  Enum := [] })]
            Required := ["location"]
            AdditionalProperties := false }
        Strict := true } }

/-- The comments of a file in traversal order: the groups in list order, the
comments of a group in their order. -/
def commentsInOrder (commentGroups : List CommentGroup) : List Comment :=
  (commentGroups.map CommentGroup.List).flatten

/-- The parser on a source that does not parse (a missing closing brace): it
returns an error; the message text stands for the diagnostic of the parser,
which `main` prints without reading it. -/
def parseBroken : String → Except String (FileSet × File) :=
  fun _ => .error "input.go:6:1: expected closing brace, found EOF"

/-- The method `Move(a int, b string)` of the sample `shapeFile`. -/
def moveMethod : Field :=
  .mk none [⟨40, "Move"⟩]
    (.FuncType
      [.mk none [⟨45, "a"⟩] (.Ident ⟨47, "int"⟩),
       .mk none [⟨52, "b"⟩] (.Ident ⟨54, "string"⟩)]
      [])

/-- The method `Scale` of the sample `shapeFile`. -/
def scaleMethod : Field :=
  .mk none [⟨68, "Scale"⟩]
    (.FuncType
      [.mk none [⟨77, "x"⟩] (.Ident ⟨79, "int"⟩),
       .mk none [⟨106, "y"⟩] (.Ident ⟨108, "int"⟩)]
      [])

/-- The method `Drop(_ int, _ []string)` of the sample `shapeFile`: its two
parameter fields share the name `_`. -/
def dropMethod : Field :=
  .mk none [⟨117, "Drop"⟩]
    (.FuncType
      [.mk none [⟨122, "_"⟩] (.Ident ⟨124, "int"⟩),
       .mk none [⟨129, "_"⟩] (.ArrayType none (.Ident ⟨133, "string"⟩))]
      [])

/-- The syntax tree of the source
```
 1  package shape
 2
 3  type Shape interface {
 4  	Move(a int, b string) // c
 5  	Scale(
 6  		x int, /* old */ // factor
 7  		y int,
 8  	)
 9  	Drop(_ int, _ []string)
10  }
```
(numbered by line, indented by tabs): the two comments of line 6 form one group. -/
def shapeFile : File :=
  { Decls :=
      [.GenDecl .TYPE
        [.TypeSpec ⟨21, "Shape"⟩ (.InterfaceType [moveMethod, scaleMethod, dropMethod])]]
    Comments := [⟨[⟨62, "// c"⟩]⟩, ⟨[⟨84, "/* old */"⟩, ⟨94, "// factor"⟩]⟩] }

/-- The file set of the sample `shapeFile`. -/
def shapeFileSet : FileSet :=
  fileSetOfLines [0, 14, 15, 38, 66, 74, 103, 112, 115, 140]

/-- The parser on the sample `shapeFile`. -/
def parseShape : String → Except String (FileSet × File) :=
  fun _ => .ok (shapeFileSet, shapeFile)

/-- The schema of the method `Move` of the sample `shapeFile`. -/
def moveSchema : JSONSchema :=
  { Typ := "function"
    Function :=
      { Name := "Move"
        Description := ""
        Parameters :=
          { Typ := "object"
            Properties :=
              [("a", { Typ := "int", Description := "c", Enum := [] }),
               ("b", { Typ := "string", Description := "c", Enum := [] })]
            Required := ["a", "b"]
            AdditionalProperties := false }
        Strict := true } }

/-- The schema of the method `Drop` of the sample `shapeFile`. -/
def dropSchema : JSONSchema :=
  { Typ := "function"
    Function :=
      { Name := "Drop"
        Description := ""
        Parameters :=
          { Typ := "object"
            Properties := [("_", { Typ := "array", Description := "", Enum := [] })]
            Required := ["_", "_"]
            AdditionalProperties := false }
        Strict := true } }

/-- The method `Join` of the sample `groupFile`: one parameter field with
the two names `a` (line 4) and `b` (line 5). -/
def joinMethod : Field :=
  .mk none [⟨40, "Join"⟩]
    (.FuncType [.mk none [⟨45, "a"⟩, ⟨59, "b"⟩] (.Ident ⟨61, "int"⟩)] [])

/-- The syntax tree of the source
```
 1  package group
 2
 3  type Group interface {
 4  	Join(a, // first
 5  		b int, // second
 6  	)
 7  }
```
(numbered by line, indented by tabs): the grouped declaration `a, b int`
spans two lines, each with its own comment. -/
def groupFile : File :=
  { Decls := [.GenDecl .TYPE [.TypeSpec ⟨21, "Group"⟩ (.InterfaceType [joinMethod])]]
    Comments := [⟨[⟨48, "// first"⟩]⟩, ⟨[⟨66, "// second"⟩]⟩] }

/-- The file set of the sample `groupFile`. -/
def groupFileSet : FileSet :=
  fileSetOfLines [0, 14, 15, 38, 56, 75, 78]

/-- The parser on the sample `groupFile`. -/
def parseGroup : String → Except String (FileSet × File) :=
  fun _ => .ok (groupFileSet, groupFile)

/-- The method `Mix` of the sample `overFile`: the fields `_ int` and `b int`
start on line 4, the field `_ string` on line 5. -/
def mixMethod : Field :=
  .mk none [⟨38, "Mix"⟩]
    (.FuncType
      [.mk none [⟨42, "_"⟩] (.Ident ⟨44, "int"⟩),
       .mk none [⟨49, "b"⟩] (.Ident ⟨51, "int"⟩),
       .mk none [⟨65, "_"⟩] (.Ident ⟨67, "string"⟩)]
      [])

/-- The syntax tree of the source
```
 1  package over
 2
 3  type Over interface {
 4  	Mix(_ int, b int, // one
 5  		_ string, // two
 6  	)
 7  }
```
(numbered by line, indented by tabs). -/
def overFile : File :=
  { Decls := [.GenDecl .TYPE [.TypeSpec ⟨20, "Over"⟩ (.InterfaceType [mixMethod])]]
    Comments := [⟨[⟨56, "// one"⟩]⟩, ⟨[⟨75, "// two"⟩]⟩] }

/-- The file set of the sample `overFile`. -/
def overFileSet : FileSet :=
  fileSetOfLines [0, 13, 14, 36, 62, 81, 84]

/-- The parser on the sample `overFile`. -/
def parseOver : String → Except String (FileSet × File) :=
  fun _ => .ok (overFileSet, overFile)

/-! ## Field accessors -/

@[simp] theorem Field.Doc_mk (d : Option CommentGroup) (n : List Ident) (t : Expr) :
    (Field.mk d n t).Doc = d := rfl

@[simp] theorem Field.Names_mk (d : Option CommentGroup) (n : List Ident) (t : Expr) :
    (Field.mk d n t).Names = n := rfl

@[simp] theorem Field.Typ_mk (d : Option CommentGroup) (n : List Ident) (t : Expr) :
    (Field.mk d n t).Typ = t := rfl

/-! ## Maps: reading after writing -/

theorem GoMap.find?_set {K V : Type} [DecidableEq K] (m : GoMap K V) (k k' : K) (v : V) :
    GoMap.find? (GoMap.set m k v) k' = if k = k' then some v else GoMap.find? m k' := by
  induction m with
  | nil =>
    by_cases h : k = k' <;> simp [GoMap.set, GoMap.find?, h]
  | cons e m ih =>
    obtain ⟨k0, v0⟩ := e
    by_cases h0 : k0 = k
    · subst h0
      by_cases h : k0 = k' <;> simp [GoMap.set, GoMap.find?, h]
    · by_cases h1 : k0 = k'
      · subst h1
        have h2 : ¬ k = k0 := fun h => h0 h.symm
        simp [GoMap.set, GoMap.find?, h0, h2]
      · simp [GoMap.set, GoMap.find?, h0, h1, ih]

theorem GoMap.keys_set {K V : Type} [DecidableEq K] (m : GoMap K V) (k : K) (v : V) :
    GoMap.keys (GoMap.set m k v) = if k ∈ GoMap.keys m then GoMap.keys m else GoMap.keys m ++ [k] := by
  induction m with
  | nil => simp [GoMap.set, GoMap.keys]
  | cons e m ih =>
    obtain ⟨k0, v0⟩ := e
    by_cases h0 : k0 = k
    · subst h0
      simp [GoMap.set, GoMap.keys]
    · have h2 : ¬ k = k0 := fun h => h0 h.symm
      simp only [GoMap.keys] at ih
      by_cases hk : k ∈ List.map Prod.fst m
      · simp [GoMap.set, GoMap.keys, h0, h2, hk, ih]
      · simp [GoMap.set, GoMap.keys, h0, h2, hk, ih]

/-! ## The loops of `main` -/

theorem Emitted.mem_andThen {a b : Emitted} {d : JSONSchema}
    (h : d ∈ (a.andThen b).docs) : d ∈ a.docs ∨ d ∈ b.docs := by
  unfold Emitted.andThen at h
  split at h
  · exact Or.inl h
  · simpa using h

theorem Emitted.andThen_mk (xs : List JSONSchema) (b : Emitted) :
    Emitted.andThen { docs := xs, panicked := false } b =
      { docs := xs ++ b.docs, panicked := b.panicked } := by
  simp [Emitted.andThen]

theorem paramsLoop_eq_none_iff (fileSet : FileSet) (comments : GoMap Nat String)
    (params : List Field) (acc : Collected) :
    paramsLoop fileSet comments params acc = none ↔ ∃ param ∈ params, param.Names = [] := by
  induction params generalizing acc with
  | nil => simp [paramsLoop]
  | cons param rest ih =>
    obtain ⟨doc, names, typ⟩ := param
    cases names with
    | nil => simp [paramsLoop, Field.Names_mk]
    | cons name0 more => simp [paramsLoop, Field.Names_mk, ih]

theorem paramsLoop_isSome (fileSet : FileSet) (comments : GoMap Nat String)
    (params : List Field) (acc : Collected) (h : ∀ param ∈ params, param.Names ≠ []) :
    ∃ acc', paramsLoop fileSet comments params acc = some acc' := by
  cases hp : paramsLoop fileSet comments params acc with
  | some acc' => exact ⟨acc', rfl⟩
  | none =>
    obtain ⟨param, hmem, hnil⟩ := (paramsLoop_eq_none_iff fileSet comments params acc).1 hp
    exact absurd hnil (h param hmem)

theorem paramsLoop_required (fileSet : FileSet) (comments : GoMap Nat String)
    (params : List Field) (acc acc' : Collected)
    (h : paramsLoop fileSet comments params acc = some acc') :
    acc'.required = acc.required ++ firstNames params := by
  induction params generalizing acc with
  | nil =>
    simp [paramsLoop] at h
    simp [firstNames, h]
  | cons param rest ih =>
    obtain ⟨doc, names, typ⟩ := param
    cases names with
    | nil => simp [paramsLoop, Field.Names_mk] at h
    | cons name0 more =>
      simp only [paramsLoop, Field.Names_mk] at h
      rw [ih _ h]
      simp [firstNames, Field.Names_mk]

/-- What an `emit` of the method loop's body says about the method and the schema. -/
theorem methodBody_emit (fileSet : FileSet) (comments : GoMap Nat String) (method : Field)
    (schema : JSONSchema) (h : methodBody fileSet comments method = .emit schema) :
    isEligible method = true ∧
    ∃ acc, paramsLoop fileSet comments (methodParams method)
        { parameters := GoMap.empty, required := [] } = some acc ∧
      schema =
        { Typ := "function"
          Function :=
            { Name := methodName method
              Description := getCommentText method.Doc
              Parameters :=
                { Typ := "object"
                  Properties := acc.parameters
                  Required := acc.required
                  AdditionalProperties := false }
              Strict := true } } := by
  obtain ⟨doc, names, typ⟩ := method
  cases names with
  | nil => simp [methodBody, Field.Names_mk] at h
  | cons name0 more =>
    cases typ
    case FuncType Params Results =>
      simp only [methodBody, Field.Names_mk, Field.Typ_mk] at h
      cases hp : paramsLoop fileSet comments Params { parameters := GoMap.empty, required := [] } with
      | none => simp [hp] at h
      | some acc =>
        simp only [hp, Step.emit.injEq] at h
        refine ⟨by simp [isEligible], acc, ?_, ?_⟩
        · simpa [methodParams] using hp
        · simp [← h, methodName]
    all_goals simp [methodBody] at h

theorem methodBody_skip_iff (fileSet : FileSet) (comments : GoMap Nat String) (method : Field) :
    methodBody fileSet comments method = .skip ↔ isEligible method = false := by
  obtain ⟨doc, names, typ⟩ := method
  cases names with
  | nil => simp [methodBody, isEligible, Field.Names_mk]
  | cons name0 more =>
    cases typ <;> simp [methodBody, isEligible, Field.Names_mk, Field.Typ_mk]
    split <;> simp

theorem methodBody_panic_iff (fileSet : FileSet) (comments : GoMap Nat String) (method : Field) :
    methodBody fileSet comments method = .panic ↔
      isEligible method = true ∧ ∃ param ∈ methodParams method, param.Names = [] := by
  obtain ⟨doc, names, typ⟩ := method
  cases names with
  | nil => simp [methodBody, isEligible, Field.Names_mk]
  | cons name0 more =>
    cases typ <;> simp [methodBody, isEligible, methodParams, Field.Names_mk, Field.Typ_mk]
    rename_i Params Results
    rw [← paramsLoop_eq_none_iff fileSet comments Params { parameters := GoMap.empty, required := [] }]
    split <;> simp_all

theorem methodsLoop_sound (fileSet : FileSet) (comments : GoMap Nat String)
    (methods : List Field) (d : JSONSchema)
    (h : d ∈ (methodsLoop fileSet comments methods).docs) :
    ∃ method ∈ methods, methodBody fileSet comments method = .emit d := by
  induction methods with
  | nil => simp [methodsLoop] at h
  | cons method rest ih =>
    unfold methodsLoop at h
    cases hb : methodBody fileSet comments method with
    | skip =>
      simp only [hb] at h
      obtain ⟨m, hm, hd⟩ := ih h
      exact ⟨m, List.mem_cons_of_mem _ hm, hd⟩
    | panic => simp [hb] at h
    | emit schema =>
      simp only [hb, Emitted.andThen_mk, List.singleton_append, List.mem_cons] at h
      rcases h with h | h
      · exact ⟨method, List.mem_cons_self _ _, by rw [hb, h]⟩
      · obtain ⟨m, hm, hd⟩ := ih h
        exact ⟨m, List.mem_cons_of_mem _ hm, hd⟩

theorem methodsLoop_complete (fileSet : FileSet) (comments : GoMap Nat String)
    (methods : List Field) (h : ∀ method ∈ methods, methodBody fileSet comments method ≠ .panic) :
    methodsLoop fileSet comments methods =
      { docs := methods.filterMap fun method => (methodBody fileSet comments method).schema?
        panicked := false } := by
  induction methods with
  | nil => rfl
  | cons method rest ih =>
    have ih' := ih fun m hm => h m (List.mem_cons_of_mem _ hm)
    have hne := h method (List.mem_cons_self _ _)
    unfold methodsLoop
    cases hb : methodBody fileSet comments method with
    | skip => simp [ih', hb, Step.schema?]
    | panic => exact absurd hb hne
    | emit schema => simp [ih', hb, Step.schema?, Emitted.andThen_mk]

theorem specsLoop_cons (fileSet : FileSet) (comments : GoMap Nat String)
    (spec : Spec) (rest : List Spec) :
    specsLoop fileSet comments (spec :: rest) =
      (methodsLoop fileSet comments (specMethods spec)).andThen
        (specsLoop fileSet comments rest) := by
  cases spec with
  | ImportSpec Path => simp [specsLoop, specMethods, methodsLoop, Emitted.andThen_mk]
  | ValueSpec Names => simp [specsLoop, specMethods, methodsLoop, Emitted.andThen_mk]
  | TypeSpec Name Typ =>
    cases Typ <;> simp [specsLoop, specMethods, methodsLoop, Emitted.andThen_mk]

theorem Emitted.andThen_assoc (a b c : Emitted) :
    (a.andThen b).andThen c = a.andThen (b.andThen c) := by
  unfold Emitted.andThen
  cases ha : a.panicked <;> cases hb : b.panicked <;> simp [ha, hb]

theorem Emitted.nil_andThen (b : Emitted) :
    Emitted.andThen { docs := [], panicked := false } b = b := by
  simp [Emitted.andThen]

theorem methodsLoop_append (fileSet : FileSet) (comments : GoMap Nat String)
    (xs ys : List Field) :
    methodsLoop fileSet comments (xs ++ ys) =
      (methodsLoop fileSet comments xs).andThen (methodsLoop fileSet comments ys) := by
  induction xs with
  | nil => simp [methodsLoop, Emitted.nil_andThen]
  | cons method rest ih =>
    simp only [List.cons_append, methodsLoop]
    cases hb : methodBody fileSet comments method with
    | skip => simpa [hb] using ih
    | panic => simp [Emitted.andThen]
    | emit schema =>
      have ih' := ih
      simp only [List.append_eq] at ih' ⊢
      simp only [ih', Emitted.andThen_assoc]

/-- The specification loop is the method loop over the method lists of the
interface type specifications. -/
theorem specsLoop_eq (fileSet : FileSet) (comments : GoMap Nat String) (specs : List Spec) :
    specsLoop fileSet comments specs =
      methodsLoop fileSet comments (specs.map specMethods).flatten := by
  induction specs with
  | nil => rfl
  | cons spec rest ih =>
    rw [specsLoop_cons, ih]
    simp [methodsLoop_append]

/-- The declaration loop is the method loop over the method lists of the
top-level interface type declarations. -/
theorem declsLoop_eq (fileSet : FileSet) (comments : GoMap Nat String) (decls : List Decl) :
    declsLoop fileSet comments decls =
      methodsLoop fileSet comments (decls.map declMethods).flatten := by
  induction decls with
  | nil => rfl
  | cons decl rest ih =>
    cases decl with
    | BadDecl => simpa [declsLoop, declMethods] using ih
    | FuncDecl Name Typ => simpa [declsLoop, declMethods] using ih
    | GenDecl Tok Specs =>
      cases Tok <;>
        simp [declsLoop, declMethods, ih, specsLoop_eq, methodsLoop_append]

/-- A run on a file that parses: the printed lines are the documents of the
method loop over the interface methods of the file. -/
theorem main_parsed (prog filePath : String) (more : List String)
    (ParseFile : String → Except String (FileSet × File)) (fileSet : FileSet) (node : File)
    (hparse : ParseFile filePath = .ok (fileSet, node)) :
    main (prog :: filePath :: more) ParseFile =
      { stdout :=
          (methodsLoop fileSet (mapCommentsByLine node.Comments fileSet)
            (interfaceMethods node)).docs.map .document
        panicked :=
          (methodsLoop fileSet (mapCommentsByLine node.Comments fileSet)
            (interfaceMethods node)).panicked } := by
  simp [main, hparse, declsLoop_eq, interfaceMethods]

theorem Run.documents_map (docs : List JSONSchema) (b : Bool) :
    Run.documents { stdout := docs.map .document, panicked := b } = docs := by
  induction docs with
  | nil => rfl
  | cons d rest ih =>
    simp only [Run.documents, List.map_cons, List.filterMap_cons] at ih ⊢
    rw [ih]

/-- Every document of a run on a file that parses is what the body of the
method loop emits for an interface method of the file. -/
theorem main_sound (prog filePath : String) (more : List String)
    (ParseFile : String → Except String (FileSet × File)) (fileSet : FileSet) (node : File)
    (hparse : ParseFile filePath = .ok (fileSet, node)) (d : JSONSchema)
    (hd : d ∈ (main (prog :: filePath :: more) ParseFile).documents) :
    ∃ method ∈ interfaceMethods node,
      methodBody fileSet (mapCommentsByLine node.Comments fileSet) method = .emit d := by
  rw [main_parsed prog filePath more ParseFile fileSet node hparse, Run.documents_map] at hd
  exact methodsLoop_sound _ _ _ _ hd

/-- The documents of the method loop follow the eligible methods position by
position: the document at index `i` is what the loop body emits for the
eligible method at index `i`. -/
theorem methodsLoop_getElem? (fileSet : FileSet) (comments : GoMap Nat String)
    (methods : List Field) (i : Nat) (d : JSONSchema)
    (h : (methodsLoop fileSet comments methods).docs[i]? = some d) :
    ∃ method, (methods.filter isEligible)[i]? = some method ∧
      methodBody fileSet comments method = .emit d := by
  induction methods generalizing i with
  | nil => simp [methodsLoop] at h
  | cons method rest ih =>
    unfold methodsLoop at h
    cases hb : methodBody fileSet comments method with
    | skip =>
      have he := (methodBody_skip_iff fileSet comments method).1 hb
      simp only [hb] at h
      rw [@List.filter_cons_of_neg _ isEligible method rest (by simp [he])]
      exact ih i h
    | panic => simp [hb] at h
    | emit schema =>
      have he := (methodBody_emit fileSet comments method schema hb).1
      simp only [hb, Emitted.andThen_mk, List.singleton_append] at h
      rw [@List.filter_cons_of_pos _ isEligible method rest he]
      cases i with
      | zero =>
        simp only [List.getElem?_cons_zero, Option.some.injEq] at h
        exact ⟨method, by simp, by rw [hb, h]⟩
      | succ j =>
        simp only [List.getElem?_cons_succ] at h ⊢
        exact ih j h

/-- The document at index `i` of a run on a file that parses is what the body
of the method loop emits for the eligible method at index `i`. -/
theorem main_getElem? (prog filePath : String) (more : List String)
    (ParseFile : String → Except String (FileSet × File)) (fileSet : FileSet) (node : File)
    (hparse : ParseFile filePath = .ok (fileSet, node)) (i : Nat) (d : JSONSchema)
    (hd : (main (prog :: filePath :: more) ParseFile).documents[i]? = some d) :
    ∃ method, (eligibleMethods node)[i]? = some method ∧
      methodBody fileSet (mapCommentsByLine node.Comments fileSet) method = .emit d := by
  rw [main_parsed prog filePath more ParseFile fileSet node hparse, Run.documents_map] at hd
  exact methodsLoop_getElem? _ _ _ i d hd

/-- A run prints documents only on a file that parses. -/
theorem main_documents_cases (Args : List String)
    (ParseFile : String → Except String (FileSet × File)) (d : JSONSchema)
    (hd : d ∈ (main Args ParseFile).documents) :
    ∃ prog filePath more fileSet node, Args = prog :: filePath :: more ∧
      ParseFile filePath = .ok (fileSet, node) := by
  match Args with
  | [] => simp [main, Run.documents] at hd
  | [_] => simp [main, Run.documents] at hd
  | prog :: filePath :: more =>
    cases hp : ParseFile filePath with
    | error err => simp [main, hp, Run.documents] at hd
    | ok res =>
      obtain ⟨fileSet, node⟩ := res
      exact ⟨prog, filePath, more, fileSet, node, rfl, hp⟩

/-! ## The parameter loop and the comment index -/

theorem GoMap.mem_set {K V : Type} [DecidableEq K] (m : GoMap K V) (k : K) (v : V)
    (e : K × V) (h : e ∈ GoMap.set m k v) : e = (k, v) ∨ e ∈ m := by
  induction m with
  | nil => simpa [GoMap.set] using h
  | cons e0 m ih =>
    obtain ⟨k0, v0⟩ := e0
    by_cases h0 : k0 = k
    · simp only [GoMap.set, h0, if_true, List.mem_cons] at h
      rcases h with h | h
      · exact Or.inl h
      · exact Or.inr (List.mem_cons_of_mem _ h)
    · simp only [GoMap.set, h0, if_false, List.mem_cons] at h
      rcases h with h | h
      · exact Or.inr (by rw [h]; exact List.mem_cons_self _ _)
      · rcases ih h with h | h
        · exact Or.inl h
        · exact Or.inr (List.mem_cons_of_mem _ h)

/-- The parameter loop never stores an `Enum`. -/
theorem paramsLoop_enum (fileSet : FileSet) (comments : GoMap Nat String)
    (params : List Field) (acc acc' : Collected)
    (h : paramsLoop fileSet comments params acc = some acc')
    (hacc : ∀ e ∈ acc.parameters, e.2.Enum = []) :
    ∀ e ∈ acc'.parameters, e.2.Enum = [] := by
  induction params generalizing acc with
  | nil =>
    simp only [paramsLoop, Option.some.injEq] at h
    rw [← h]
    exact hacc
  | cons param rest ih =>
    obtain ⟨doc, names, typ⟩ := param
    cases names with
    | nil => simp [paramsLoop] at h
    | cons name0 more =>
      simp only [paramsLoop, Field.Names_mk] at h
      refine ih _ h ?_
      intro e he
      rcases GoMap.mem_set _ _ _ _ he with h1 | h1
      · rw [h1]
      · exact hacc e h1

/-- The parameter loop leaves the entry of a name alone that no field has as
its first name. -/
theorem paramsLoop_find?_of_not_mem (fileSet : FileSet) (comments : GoMap Nat String)
    (params : List Field) (acc acc' : Collected)
    (h : paramsLoop fileSet comments params acc = some acc') (k : String)
    (hk : k ∉ firstNames params) :
    GoMap.find? acc'.parameters k = GoMap.find? acc.parameters k := by
  induction params generalizing acc with
  | nil =>
    simp only [paramsLoop, Option.some.injEq] at h
    rw [← h]
  | cons param rest ih =>
    obtain ⟨doc, names, typ⟩ := param
    cases names with
    | nil => simp [paramsLoop] at h
    | cons name0 more =>
      simp only [paramsLoop, Field.Names_mk] at h
      have hk' : name0.Name ≠ k ∧ k ∉ firstNames rest := by
        simp only [firstNames, List.filterMap_cons, Field.Names_mk, List.head?_cons,
          Option.map_some', List.mem_cons, not_or] at hk
        exact ⟨fun e => hk.1 e.symm, hk.2⟩
      rw [ih _ h hk'.2]
      simp [GoMap.find?_set, hk'.1]

/-- When the first names of the fields are pairwise distinct, the parameter
loop leaves under the first name of each field the property of that field. -/
theorem paramsLoop_find?_of_nodup (fileSet : FileSet) (comments : GoMap Nat String)
    (params : List Field) (acc acc' : Collected)
    (h : paramsLoop fileSet comments params acc = some acc')
    (hnodup : (firstNames params).Nodup) (param : Field) (hmem : param ∈ params)
    (name0 : Ident) (hname : param.Names.head? = some name0) :
    GoMap.find? acc'.parameters name0.Name =
      some { Typ := paramTypeToString param.Typ
             Description := comments.get (fileSet.Line name0.NamePos)
             Enum := [] } := by
  induction params generalizing acc with
  | nil => simp at hmem
  | cons p rest ih =>
    obtain ⟨doc, names, typ⟩ := p
    cases names with
    | nil => simp [paramsLoop] at h
    | cons n0 more =>
      simp only [paramsLoop, Field.Names_mk] at h
      have hnd : n0.Name ∉ firstNames rest ∧ (firstNames rest).Nodup := by
        simpa [firstNames] using hnodup
      rcases List.mem_cons.1 hmem with hp | hp
      · subst hp
        simp only [Field.Names_mk, List.head?_cons, Option.some.injEq] at hname
        subst hname
        rw [paramsLoop_find?_of_not_mem fileSet comments rest _ acc' h _ hnd.1]
        simp [GoMap.find?_set]
      · exact ih _ h hnd.2 hp

theorem mapCommentsGroup_find?_of_no_comment (fileSet : FileSet) (group : List Comment)
    (comments : GoMap Nat String) (line : Nat)
    (h : ∀ comment ∈ group, fileSet.Line comment.Slash ≠ line) :
    GoMap.find? (mapCommentsGroup fileSet group comments) line = GoMap.find? comments line := by
  induction group generalizing comments with
  | nil => rfl
  | cons comment rest ih =>
    simp only [mapCommentsGroup]
    rw [ih _ fun c hc => h c (List.mem_cons_of_mem _ hc)]
    simp [GoMap.find?_set, h comment (List.mem_cons_self _ _)]

theorem mapCommentsGroups_find?_of_no_comment (fileSet : FileSet) (groups : List CommentGroup)
    (comments : GoMap Nat String) (line : Nat)
    (h : ∀ group ∈ groups, ∀ comment ∈ group.List, fileSet.Line comment.Slash ≠ line) :
    GoMap.find? (mapCommentsGroups fileSet groups comments) line = GoMap.find? comments line := by
  induction groups generalizing comments with
  | nil => rfl
  | cons group rest ih =>
    simp only [mapCommentsGroups]
    rw [ih _ fun g hg => h g (List.mem_cons_of_mem _ hg)]
    exact mapCommentsGroup_find?_of_no_comment fileSet group.List comments line
      (h group (List.mem_cons_self _ _))

/-- The comment index reads as the empty string at a line on which no comment starts. -/
theorem mapCommentsByLine_get_of_no_comment (fileSet : FileSet) (groups : List CommentGroup)
    (line : Nat)
    (h : ∀ group ∈ groups, ∀ comment ∈ group.List, fileSet.Line comment.Slash ≠ line) :
    (mapCommentsByLine groups fileSet).get line = "" := by
  unfold mapCommentsByLine GoMap.get
  rw [mapCommentsGroups_find?_of_no_comment fileSet groups _ line h]
  rfl

/-- Go `strings.TrimPrefix` removes the marker of a `//` comment. -/
theorem TrimPrefix_slashes (body : String) : TrimPrefix ("//" ++ body) "//" = body := by
  simp [TrimPrefix, stripPrefix]

/-! ## The type mapping -/

/-- C1: `paramTypeToString` gives a pointer to `T` the string it gives `T`,
through any number of pointer levels; `*string` and `**string` both map to
`"string"`. -/
theorem C1_pointer_maps_as_pointee (T : Expr) (n : Nat) (pos : Pos) :
    paramTypeToString (.StarExpr T) = paramTypeToString T ∧
    paramTypeToString (Nat.iterate Expr.StarExpr n T) = paramTypeToString T ∧
    paramTypeToString (.StarExpr (.Ident ⟨pos, "string"⟩)) = "string" ∧
    paramTypeToString (.StarExpr (.StarExpr (.Ident ⟨pos, "string"⟩))) = "string" := by
  refine ⟨rfl, ?_, rfl, rfl⟩
  induction n generalizing T with
  | zero => rfl
  | succ k ih =>
    rw [Function.iterate_succ_apply, ih]
    rfl

/-- C2: `paramTypeToString` returns the name of an identifier verbatim,
`"array"` for an array or slice type, `"object"` for a map type, and
`"unknown"` for every expression that is none of these and not a pointer:
function, channel, interface and struct types, `pkg.Name` selectors and
variadic ellipses among them. -/
theorem C2_type_mapping_cases :
    (∀ id : Ident, paramTypeToString (.Ident id) = id.Name) ∧
    (∀ Len Elt, paramTypeToString (.ArrayType Len Elt) = "array") ∧
    (∀ Key Value, paramTypeToString (.MapType Key Value) = "object") ∧
    (∀ e : Expr, (∀ id, e ≠ .Ident id) → (∀ Len Elt, e ≠ .ArrayType Len Elt) →
      (∀ Key Value, e ≠ .MapType Key Value) → (∀ X, e ≠ .StarExpr X) →
      paramTypeToString e = "unknown") ∧
    (∀ Params Results, paramTypeToString (.FuncType Params Results) = "unknown") ∧
    (∀ Value, paramTypeToString (.ChanType Value) = "unknown") ∧
    (∀ Methods, paramTypeToString (.InterfaceType Methods) = "unknown") ∧
    (∀ Fields, paramTypeToString (.StructType Fields) = "unknown") ∧
    (∀ X Sel, paramTypeToString (.SelectorExpr X Sel) = "unknown") ∧
    (∀ Elt, paramTypeToString (.Ellipsis Elt) = "unknown") := by
  refine ⟨fun _ => rfl, fun _ _ => rfl, fun _ _ => rfl, ?_, fun _ _ => rfl, fun _ => rfl,
    fun _ => rfl, fun _ => rfl, fun _ _ => rfl, fun _ => rfl⟩
  intro e hId hArr hMap hStar
  cases e <;> first
    | rfl
    | exact absurd rfl (hId _)
    | exact absurd rfl (hArr _ _)
    | exact absurd rfl (hMap _ _)
    | exact absurd rfl (hStar _)

/-- C2 at a concrete input: the qualified type `time.Time` maps to `"unknown"`. -/
theorem C2_type_mapping_cases_witness :
    paramTypeToString (.SelectorExpr (.Ident ⟨1, "time"⟩) ⟨6, "Time"⟩) = "unknown" :=
  C2_type_mapping_cases.2.2.2.1 _ (fun _ h => by cases h) (fun _ _ h => by cases h)
    (fun _ _ h => by cases h) (fun _ h => by cases h)

/-! ## Required names, one document per method -/

/-- C3 (failing input): for the method `Add(a, b int) int` the run prints a
schema whose `required` list and whose `properties` hold `a` alone, while the
parameter list declares the names `a` and `b`: the second name of the grouped
declaration is dropped. -/
theorem C3_grouped_name_dropped :
    eligibleMethods pairFile = [addMethod] ∧
    declaredNames (methodParams addMethod) = ["a", "b"] ∧
    (main sampleArgs parsePair).documents.map (fun d => d.Function.Parameters.Required)
      = [["a"]] ∧
    (main sampleArgs parsePair).documents.map
      (fun d => GoMap.keys d.Function.Parameters.Properties) = [["a"]] ∧
    "b" ∈ declaredNames (methodParams addMethod) ∧
    ∀ d ∈ (main sampleArgs parsePair).documents, "b" ∉ d.Function.Parameters.Required :=
  ⟨rfl, by decide, by decide, by decide, by decide, by decide⟩

theorem methodsLoop_names (fileSet : FileSet) (comments : GoMap Nat String)
    (methods : List Field) :
    (methods.filterMap fun method => (methodBody fileSet comments method).schema?).map
        (fun d => d.Function.Name) =
      ((methods.filter isEligible).filter
        fun method => decide (methodBody fileSet comments method ≠ .panic)).map methodName := by
  induction methods with
  | nil => rfl
  | cons method rest ih =>
    cases hb : methodBody fileSet comments method with
    | skip =>
      have he := (methodBody_skip_iff fileSet comments method).1 hb
      have h1 : (methodBody fileSet comments method).schema? = none := by rw [hb]; rfl
      rw [@List.filterMap_cons_none _ _
          (fun method => (methodBody fileSet comments method).schema?) method rest h1,
        @List.filter_cons_of_neg _ isEligible method rest (by simp [he])]
      exact ih
    | panic =>
      have he := ((methodBody_panic_iff fileSet comments method).1 hb).1
      have h1 : (methodBody fileSet comments method).schema? = none := by rw [hb]; rfl
      rw [@List.filterMap_cons_none _ _
          (fun method => (methodBody fileSet comments method).schema?) method rest h1,
        @List.filter_cons_of_pos _ isEligible method rest he,
        @List.filter_cons_of_neg _
          (fun method => decide (methodBody fileSet comments method ≠ .panic)) method _
          (by simp [hb])]
      exact ih
    | emit schema =>
      obtain ⟨he, acc, -, hs⟩ := methodBody_emit fileSet comments method schema hb
      have h1 : (methodBody fileSet comments method).schema? = some schema := by rw [hb]; rfl
      rw [@List.filterMap_cons_some _ _
          (fun method => (methodBody fileSet comments method).schema?) method rest schema h1,
        @List.filter_cons_of_pos _ isEligible method rest he,
        @List.filter_cons_of_pos _
          (fun method => decide (methodBody fileSet comments method ≠ .panic)) method _
          (by simp [hb]),
        List.map_cons, List.map_cons, ih, hs]

/-- C4: on a file that parses and whose eligible methods have only named
parameters, the run ends without a panic, prints schema documents only, one
per eligible method, and the names of the documents are the names of the
eligible methods in declaration order. -/
theorem C4_one_document_per_eligible_method (prog filePath : String) (more : List String)
    (ParseFile : String → Except String (FileSet × File)) (fileSet : FileSet) (node : File)
    (hparse : ParseFile filePath = .ok (fileSet, node))
    (hnamed : ∀ method ∈ eligibleMethods node, ∀ param ∈ methodParams method,
      param.Names ≠ []) :
    (main (prog :: filePath :: more) ParseFile).panicked = false ∧
    (main (prog :: filePath :: more) ParseFile).stdout =
      (main (prog :: filePath :: more) ParseFile).documents.map .document ∧
    (main (prog :: filePath :: more) ParseFile).documents.length =
      (eligibleMethods node).length ∧
    (main (prog :: filePath :: more) ParseFile).documents.map (fun d => d.Function.Name) =
      (eligibleMethods node).map methodName := by
  have hnp : ∀ method ∈ interfaceMethods node,
      methodBody fileSet (mapCommentsByLine node.Comments fileSet) method ≠ .panic := by
    intro method hm hpanic
    obtain ⟨he, param, hp, hnil⟩ := (methodBody_panic_iff _ _ _).1 hpanic
    exact hnamed method (List.mem_filter.2 ⟨hm, he⟩) param hp hnil
  have hnames : (main (prog :: filePath :: more) ParseFile).documents.map
      (fun d => d.Function.Name) = (eligibleMethods node).map methodName := by
    rw [main_parsed prog filePath more ParseFile fileSet node hparse, Run.documents_map,
      methodsLoop_complete _ _ _ hnp, methodsLoop_names]
    congr 1
    apply List.filter_eq_self.2
    intro method hm
    simpa using hnp method (List.mem_filter.1 hm).1
  refine ⟨?_, ?_, ?_, hnames⟩
  · rw [main_parsed prog filePath more ParseFile fileSet node hparse,
      methodsLoop_complete _ _ _ hnp]
  · rw [main_parsed prog filePath more ParseFile fileSet node hparse, Run.documents_map]
  · have h := congrArg List.length hnames
    simpa using h

/-- C4 at a concrete input: the sample `mailFile` has the eligible methods
`Send` and `Ping` after an embedded interface, and the run prints the two
documents `Send` and `Ping`, in that order. -/
theorem C4_one_document_per_eligible_method_witness :
    eligibleMethods mailFile = [sendMethod, pingMethod] ∧
    (main sampleArgs parseMail).panicked = false ∧
    (main sampleArgs parseMail).stdout =
      (main sampleArgs parseMail).documents.map .document ∧
    (main sampleArgs parseMail).documents.length = 2 ∧
    (main sampleArgs parseMail).documents.map (fun d => d.Function.Name) = ["Send", "Ping"] :=
  ⟨rfl, C4_one_document_per_eligible_method "main" "input.go" [] parseMail mailFileSet mailFile
    rfl (by decide)⟩

/-- C7 (failing input): on the interface with the methods
`Put(key string, value []byte)` and `Get(string) []byte` the run prints the
schema of `Put` and then panics in the parameter loop of `Get`, whose
parameter has no name: the exit status is 2 and no schema of `Get` is printed. -/
theorem C7_unnamed_parameter_panics :
    eligibleMethods storeFile = [putMethod, getMethod] ∧
    methodBody (fileSetOfLines [0, 14, 15, 38, 69, 89])
      (mapCommentsByLine storeFile.Comments (fileSetOfLines [0, 14, 15, 38, 69, 89]))
      getMethod = .panic ∧
    (main sampleArgs parseStore).panicked = true ∧
    (main sampleArgs parseStore).exitCode = 2 ∧
    (main sampleArgs parseStore).documents.map (fun d => d.Function.Name) = ["Put"] :=
  ⟨rfl, by decide, by decide, by decide, by decide⟩

/-! ## Descriptions -/

/-- C5: the description of the document at index `i` is `getCommentText` of
the documentation group of the eligible method at index `i`; it is the empty
string when the method has no documentation group; and for a block of `//`
comment lines (three lines in particular) `getCommentText` joins the texts
after the `//`, each trimmed of surrounding white space, with single spaces,
in source order. -/
theorem C5_method_description (prog filePath : String) (more : List String)
    (ParseFile : String → Except String (FileSet × File)) (fileSet : FileSet) (node : File)
    (hparse : ParseFile filePath = .ok (fileSet, node)) (i : Nat) (d : JSONSchema)
    (hd : (main (prog :: filePath :: more) ParseFile).documents[i]? = some d) :
    (∃ method, (eligibleMethods node)[i]? = some method ∧
      d.Function.Description = getCommentText method.Doc ∧
      (method.Doc = none → d.Function.Description = "")) ∧
    getCommentText none = "" ∧
    (∀ block : List (Pos × String),
      getCommentText (some ⟨block.map fun line => ⟨line.1, "//" ++ line.2⟩⟩) =
        Join (block.map fun line => TrimSpace line.2) " ") ∧
    (∀ (p1 p2 p3 : Pos) (t1 t2 t3 : String),
      getCommentText (some ⟨[⟨p1, "//" ++ t1⟩, ⟨p2, "//" ++ t2⟩, ⟨p3, "//" ++ t3⟩]⟩) =
        TrimSpace t1 ++ " " ++ (TrimSpace t2 ++ " " ++ TrimSpace t3)) := by
  refine ⟨?_, rfl, ?_, ?_⟩
  · obtain ⟨method, hm, hb⟩ := main_getElem? prog filePath more ParseFile fileSet node hparse i d hd
    obtain ⟨-, acc, -, hs⟩ := methodBody_emit _ _ _ _ hb
    refine ⟨method, hm, by rw [hs], fun hnone => ?_⟩
    rw [hs, hnone]
    rfl
  · intro block
    simp only [getCommentText, List.map_map]
    congr 1
    apply List.map_congr_left
    intro line _
    simp [TrimPrefix_slashes]
  · intro p1 p2 p3 t1 t2 t3
    simp [getCommentText, Join, TrimPrefix_slashes]

/-- C5 at a concrete input: the first document of the run on the sample
`mailFile` is the schema of `Send`, whose description joins the three lines of
its documentation block. -/
theorem C5_method_description_witness :
    (main sampleArgs parseMail).documents[0]? = some sendSchema ∧
    (eligibleMethods mailFile)[0]? = some sendMethod ∧
    getCommentText sendMethod.Doc =
      "Send delivers a message. It retries on failure. Returns the message id." ∧
    ∃ method, (eligibleMethods mailFile)[0]? = some method ∧
      sendSchema.Function.Description = getCommentText method.Doc ∧
      (method.Doc = none → sendSchema.Function.Description = "") :=
  ⟨by decide, rfl, by decide,
    (C5_method_description "main" "input.go" [] parseMail mailFileSet mailFile rfl 0 sendSchema
      (by decide)).1⟩

/-- Take the document at index `i` and the eligible method at index `i`, and
let the first names of the method's parameter fields be pairwise distinct.
Then every parameter field has a property under its first name, and the
description of that property is what `mapCommentsByLine` indexes at the line
of the field's position (`param.Pos()`, the position of its first name); it
is the empty string when no comment of the file starts on that line, whatever
comments start on other lines. -/
theorem first_name_description_by_line (prog filePath : String) (more : List String)
    (ParseFile : String → Except String (FileSet × File)) (fileSet : FileSet) (node : File)
    (hparse : ParseFile filePath = .ok (fileSet, node)) (i : Nat) (d : JSONSchema)
    (hd : (main (prog :: filePath :: more) ParseFile).documents[i]? = some d) :
    ∃ method, (eligibleMethods node)[i]? = some method ∧
      ((firstNames (methodParams method)).Nodup →
        ∀ param ∈ methodParams method, ∀ name0, param.Names.head? = some name0 →
          ∃ property,
            GoMap.find? d.Function.Parameters.Properties name0.Name = some property ∧
            property.Description =
              (mapCommentsByLine node.Comments fileSet).get (fileSet.Line name0.NamePos) ∧
            ((∀ group ∈ node.Comments, ∀ comment ∈ group.List,
                fileSet.Line comment.Slash ≠ fileSet.Line name0.NamePos) →
              property.Description = "")) := by
  obtain ⟨method, hm, hb⟩ := main_getElem? prog filePath more ParseFile fileSet node hparse i d hd
  obtain ⟨-, acc, hacc, hs⟩ := methodBody_emit _ _ _ _ hb
  refine ⟨method, hm, fun hnodup param hparam name0 hname => ?_⟩
  have hfind := paramsLoop_find?_of_nodup fileSet (mapCommentsByLine node.Comments fileSet)
    (methodParams method) _ acc hacc hnodup param hparam name0 hname
  refine ⟨_, by rw [hs]; exact hfind, rfl, fun hnone => ?_⟩
  exact mapCommentsByLine_get_of_no_comment fileSet node.Comments _ hnone

/-- C6 (failing input): in `Join(a, b int)`, with `a` and the comment
`// first` on line 4 and `b` and the comment `// second` on line 5, the names
`a` and `b` are distinct and the index holds `second` at the line of `b`; the
printed schema has the property `a` alone, with the description `first`, and
no property for the parameter `b`. -/
theorem C6_grouped_parameter_without_property :
    eligibleMethods groupFile = [joinMethod] ∧
    declaredNames (methodParams joinMethod) = ["a", "b"] ∧
    (declaredNames (methodParams joinMethod)).Nodup ∧
    groupFileSet.Line 59 = 5 ∧
    GoMap.find? (mapCommentsByLine groupFile.Comments groupFileSet) 5 = some "second" ∧
    (main sampleArgs parseGroup).documents.map (fun d => d.Function.Parameters.Properties) =
      [[("a", { Typ := "int", Description := "first", Enum := [] })]] ∧
    (main sampleArgs parseGroup).documents.map
      (fun d => GoMap.find? d.Function.Parameters.Properties "b") = [none] :=
  ⟨rfl, by decide, by decide, by decide, by decide, by decide, by decide⟩

/-! ## Skipped items, the example of `main.go`, fixed fields -/

theorem methodBody_skip_of_unnamed (fileSet : FileSet) (comments : GoMap Nat String)
    (method : Field) (h : method.Names = []) : methodBody fileSet comments method = .skip := by
  obtain ⟨doc, names, typ⟩ := method
  simp only [Field.Names_mk] at h
  subst h
  rfl

theorem methodBody_skip_of_not_func (fileSet : FileSet) (comments : GoMap Nat String)
    (method : Field) (h : ∀ Params Results, method.Typ ≠ .FuncType Params Results) :
    methodBody fileSet comments method = .skip := by
  apply (methodBody_skip_iff fileSet comments method).2
  obtain ⟨doc, names, typ⟩ := method
  cases names with
  | nil => rfl
  | cons name0 more =>
    cases typ
    case FuncType Params Results => exact absurd rfl (h Params Results)
    all_goals rfl

theorem methodsLoop_of_all_skip (fileSet : FileSet) (comments : GoMap Nat String)
    (methods : List Field) (h : ∀ method ∈ methods, methodBody fileSet comments method = .skip) :
    methodsLoop fileSet comments methods = { docs := [], panicked := false } := by
  induction methods with
  | nil => rfl
  | cons method rest ih =>
    unfold methodsLoop
    rw [h method (List.mem_cons_self _ _)]
    exact ih fun m hm => h m (List.mem_cons_of_mem _ hm)

/-- C8: a method-list entry with no name, an entry whose type is no function
type, a type specification whose type is no interface type and a top-level
declaration that is no type declaration each leave the run as it is without
them: they print nothing and cause no panic. On a file that parses and whose
interface method lists hold only such entries, the run prints nothing and
ends without a panic. -/
theorem C8_skipped_items (fileSet : FileSet) (comments : GoMap Nat String) :
    (∀ method rest, method.Names = [] →
      methodsLoop fileSet comments (method :: rest) = methodsLoop fileSet comments rest) ∧
    (∀ method rest, (∀ Params Results, method.Typ ≠ .FuncType Params Results) →
      methodsLoop fileSet comments (method :: rest) = methodsLoop fileSet comments rest) ∧
    (∀ Name Typ rest, (∀ Methods, Typ ≠ .InterfaceType Methods) →
      specsLoop fileSet comments (.TypeSpec Name Typ :: rest) =
        specsLoop fileSet comments rest) ∧
    (∀ decl rest, (∀ Specs, decl ≠ .GenDecl .TYPE Specs) →
      declsLoop fileSet comments (decl :: rest) = declsLoop fileSet comments rest) ∧
    (∀ (prog filePath : String) (more : List String)
        (ParseFile : String → Except String (FileSet × File)) (node : File),
      ParseFile filePath = .ok (fileSet, node) →
      (∀ method ∈ interfaceMethods node,
        method.Names = [] ∨ ∀ Params Results, method.Typ ≠ .FuncType Params Results) →
      main (prog :: filePath :: more) ParseFile = { stdout := [], panicked := false } ∧
      (main (prog :: filePath :: more) ParseFile).exitCode = 0) := by
  refine ⟨?_, ?_, ?_, ?_, ?_⟩
  · intro method rest h
    rw [methodsLoop, methodBody_skip_of_unnamed fileSet comments method h]
  · intro method rest h
    rw [methodsLoop, methodBody_skip_of_not_func fileSet comments method h]
  · intro Name Typ rest h
    cases Typ
    case InterfaceType Methods => exact absurd rfl (h Methods)
    all_goals rfl
  · intro decl rest h
    cases decl with
    | BadDecl => rfl
    | FuncDecl Name Typ => rfl
    | GenDecl Tok Specs =>
      cases Tok
      case TYPE => exact absurd rfl (h Specs)
      all_goals simp [declsLoop]
  · intro prog filePath more ParseFile node hparse hall
    have hrun : main (prog :: filePath :: more) ParseFile = { stdout := [], panicked := false } := by
      rw [main_parsed prog filePath more ParseFile fileSet node hparse,
        methodsLoop_of_all_skip]
      · rfl
      · intro method hm
        rcases hall method hm with h | h
        · exact methodBody_skip_of_unnamed _ _ method h
        · exact methodBody_skip_of_not_func _ _ method h
    exact ⟨hrun, by rw [hrun]; rfl⟩

/-- C8 at a concrete input: the sample `miscFile` holds an import, a type
declaration that is no interface, an interface with an embedded interface
only, a variable and a function; its run prints nothing and exits with
status 0. -/
theorem C8_skipped_items_witness :
    interfaceMethods miscFile = [.mk none [] (.SelectorExpr (.Ident ⟨75, "io"⟩) ⟨78, "Reader"⟩)] ∧
    main sampleArgs parseMisc = { stdout := [], panicked := false } ∧
    (main sampleArgs parseMisc).exitCode = 0 :=
  ⟨rfl,
    (C8_skipped_items (fileSetOfLines [0, 13, 14, 26, 27, 48, 49, 73, 84, 86, 87, 104, 105])
      GoMap.empty).2.2.2.2 "main" "input.go" [] parseMisc miscFile rfl
      (fun method hm => Or.inl (by
        have h : method = .mk none [] (.SelectorExpr (.Ident ⟨75, "io"⟩) ⟨78, "Reader"⟩) := by
          simpa [interfaceMethods, miscFile, declMethods, specMethods] using hm
        rw [h]
        rfl))⟩

theorem flatten_declMethods_of_none (decls : List Decl)
    (h : ∀ decl ∈ decls, declMethods decl = []) : (decls.map declMethods).flatten = [] := by
  induction decls with
  | nil => rfl
  | cons decl rest ih =>
    simp only [List.map_cons, List.flatten_cons, h decl (List.mem_cons_self _ _),
      List.nil_append]
    exact ih fun d hd => h d (List.mem_cons_of_mem _ hd)

/-- C9: on a file that parses, whose only top-level interface declaration is
`Weather` with the one method `GetWeather`, which has a documentation group
and the single parameter `location string`, the run prints exactly one
document and ends without a panic. The document has the name `GetWeather`,
the one property `location` of type `string` whose description is the text
indexed at the line of `location`, `required` equal to `["location"]`, and as
description the text of the documentation group. -/
theorem C9_weather_end_to_end (prog filePath : String) (more : List String)
    (ParseFile : String → Except String (FileSet × File)) (fileSet : FileSet) (node : File)
    (hparse : ParseFile filePath = .ok (fileSet, node))
    (before after : List Decl) (weatherPos methodPos namePos typePos : Pos)
    (doc : CommentGroup) (paramDoc : Option CommentGroup) (results : List Field)
    (hdecls : node.Decls = before ++
      .GenDecl .TYPE
        [.TypeSpec ⟨weatherPos, "Weather"⟩
          (.InterfaceType
            [.mk (some doc) [⟨methodPos, "GetWeather"⟩]
              (.FuncType [.mk paramDoc [⟨namePos, "location"⟩] (.Ident ⟨typePos, "string"⟩)]
                results)])] :: after)
    (hbefore : ∀ decl ∈ before, declMethods decl = [])
    (hafter : ∀ decl ∈ after, declMethods decl = []) :
    main (prog :: filePath :: more) ParseFile =
      { stdout :=
          [.document
            { Typ := "function"
              Function :=
                { Name := "GetWeather"
                  Description := getCommentText (some doc)
                  Parameters :=
                    { Typ := "object"
                      Properties :=
                        [("location",
                          { Typ := "string"
                            Description :=
                              (mapCommentsByLine node.Comments fileSet).get
                                (fileSet.Line namePos)
                            Enum := [] })]
                      Required := ["location"]
                      AdditionalProperties := false }
                  Strict := true } }]
        panicked := false } := by
  have hmethods : interfaceMethods node =
      [.mk (some doc) [⟨methodPos, "GetWeather"⟩]
        (.FuncType [.mk paramDoc [⟨namePos, "location"⟩] (.Ident ⟨typePos, "string"⟩)]
          results)] := by
    simp [interfaceMethods, hdecls, flatten_declMethods_of_none before hbefore,
      flatten_declMethods_of_none after hafter, declMethods, specMethods]
  rw [main_parsed prog filePath more ParseFile fileSet node hparse, hmethods]
  simp [methodsLoop, methodBody, paramsLoop, paramTypeToString, GoMap.set, GoMap.empty,
    Emitted.andThen]

/-- C9 at a concrete input: the run on `main.go` itself prints the one schema
of `GetWeather`. -/
theorem C9_weather_end_to_end_witness :
    main sampleArgs parseMainGo =
      { stdout := [.document getWeatherSchema], panicked := false } :=
  (C9_weather_end_to_end "main" "input.go" [] parseMainGo mainGoFileSet mainGoFile rfl
    [.GenDecl .IMPORT
      [.ImportSpec "encoding/json", .ImportSpec "fmt", .ImportSpec "go/ast",
       .ImportSpec "go/parser", .ImportSpec "go/token", .ImportSpec "os",
       .ImportSpec "strings"]]
    (mainGoFile.Decls.drop 2) 129 209 229 238
    ⟨[⟨153, "// Retrieves current weather for the given location"⟩]⟩ none
    [.mk none [⟨296, "temp"⟩] (.Ident ⟨301, "int"⟩)] rfl
    (by simp [declMethods]) (by simp [mainGoFile, declMethods, specMethods])).trans
    (by decide)

/-- C10: every schema a run prints, on any arguments and any input, has
`type` equal to `"function"`, `parameters.type` equal to `"object"`,
`additionalProperties` false and `strict` true, and none of its properties
has an `enum`; the schema is determined by its name, its description, its
properties and its required list. -/
theorem C10_fixed_fields (Args : List String)
    (ParseFile : String → Except String (FileSet × File)) (d : JSONSchema)
    (hd : d ∈ (main Args ParseFile).documents) :
    d.Typ = "function" ∧
    d.Function.Parameters.Typ = "object" ∧
    d.Function.Parameters.AdditionalProperties = false ∧
    d.Function.Strict = true ∧
    (∀ e ∈ d.Function.Parameters.Properties, e.2.Enum = []) ∧
    d =
      { Typ := "function"
        Function :=
          { Name := d.Function.Name
            Description := d.Function.Description
            Parameters :=
              { Typ := "object"
                Properties := d.Function.Parameters.Properties
                Required := d.Function.Parameters.Required
                AdditionalProperties := false }
            Strict := true } } := by
  obtain ⟨prog, filePath, more, fileSet, node, hargs, hparse⟩ :=
    main_documents_cases Args ParseFile d hd
  subst hargs
  obtain ⟨method, -, hb⟩ := main_sound prog filePath more ParseFile fileSet node hparse d hd
  obtain ⟨-, acc, hacc, hs⟩ := methodBody_emit _ _ _ _ hb
  have henum := paramsLoop_enum _ _ _ _ acc hacc (by simp [GoMap.empty])
  subst hs
  exact ⟨rfl, rfl, rfl, rfl, henum, rfl⟩

/-- C10 at a concrete input: the schema of `Send` printed by the run on the
sample `mailFile` has the fixed fields and no `enum`. -/
theorem C10_fixed_fields_witness :
    sendSchema ∈ (main sampleArgs parseMail).documents ∧
    sendSchema.Typ = "function" ∧
    sendSchema.Function.Parameters.Typ = "object" ∧
    sendSchema.Function.Parameters.AdditionalProperties = false ∧
    sendSchema.Function.Strict = true ∧
    ∀ e ∈ sendSchema.Function.Parameters.Properties, e.2.Enum = [] :=
  have h := C10_fixed_fields sampleArgs parseMail sendSchema (by decide)
  ⟨by decide, h.1, h.2.1, h.2.2.1, h.2.2.2.1, h.2.2.2.2.1⟩

/-! ## The range of the type mapping, parse failures -/

theorem length_le_sum_lengths (S : List String) (s : String) (h : s ∈ S) :
    s.length ≤ (S.map String.length).sum := by
  induction S with
  | nil => simp at h
  | cons t rest ih =>
    rcases List.mem_cons.1 h with h | h
    · subst h
      simp
    · have := ih h
      simp only [List.map_cons, List.sum_cons]
      omega

/-- No finite list of strings holds every string. -/
theorem exists_string_not_mem (S : List String) : ∃ s : String, s ∉ S := by
  refine ⟨⟨List.replicate ((S.map String.length).sum + 1) 'a'⟩, fun h => ?_⟩
  have hle := length_le_sum_lengths S _ h
  simp [String.length] at hle

/-- C11 (counterexample): the identifier type `Celsius` maps to `"Celsius"`,
and no finite set of strings holds every result of `paramTypeToString`. -/
theorem C11_results_not_in_a_closed_set :
    paramTypeToString (.Ident ⟨1, "Celsius"⟩) = "Celsius" ∧
    ¬ ∃ S : List String, ∀ e : Expr, paramTypeToString e ∈ S := by
  refine ⟨rfl, ?_⟩
  rintro ⟨S, hS⟩
  obtain ⟨s, hs⟩ := exists_string_not_mem S
  exact hs (hS (.Ident ⟨0, s⟩))

theorem paramTypeToString_range (e : Expr) :
    paramTypeToString e ∈ ["array", "object", "unknown"] ∨
    ∃ (n : Nat) (id : Ident),
      e = Nat.iterate Expr.StarExpr n (.Ident id) ∧ paramTypeToString e = id.Name := by
  cases e
  case Ident id => exact Or.inr ⟨0, id, rfl, rfl⟩
  case StarExpr X =>
    rcases paramTypeToString_range X with h | ⟨n, id, hX, hname⟩
    · exact Or.inl h
    · refine Or.inr ⟨n + 1, id, ?_, hname⟩
      rw [Function.iterate_succ_apply', hX]
  all_goals exact Or.inl (by simp [paramTypeToString])
termination_by sizeOf e
decreasing_by
  simp_wf

/-- C11 (amended): `paramTypeToString` returns one of the three fixed names
`"array"`, `"object"`, `"unknown"`, or else the expression is an identifier
under some number of pointer levels and the result is the name of that
identifier, verbatim. -/
theorem C11_fixed_name_or_identifier (e : Expr) :
    paramTypeToString e ∈ ["array", "object", "unknown"] ∨
    ∃ (n : Nat) (id : Ident),
      e = Nat.iterate Expr.StarExpr n (.Ident id) ∧ paramTypeToString e = id.Name :=
  paramTypeToString_range e

/-- C12 (counterexample): on a source that does not parse the run prints no
document and the error message, and its exit status is 0, not a failure
status. -/
theorem C12_parse_failure_exits_zero :
    main sampleArgs parseBroken =
      { stdout := [.parseError "input.go:6:1: expected closing brace, found EOF"]
        panicked := false } ∧
    (main sampleArgs parseBroken).documents = [] ∧
    (main sampleArgs parseBroken).exitCode = 0 ∧
    ¬ (main sampleArgs parseBroken).exitCode ≠ 0 := by
  decide

/-- C12 (amended): when parsing fails the run prints the error message and
nothing else, so no schema document and no part of one, and it ends by
returning from `main`: the exit status is 0. -/
theorem C12_parse_failure_prints_error_only (prog filePath : String) (more : List String)
    (ParseFile : String → Except String (FileSet × File)) (err : String)
    (hfail : ParseFile filePath = .error err) :
    main (prog :: filePath :: more) ParseFile =
      { stdout := [.parseError err], panicked := false } ∧
    (main (prog :: filePath :: more) ParseFile).documents = [] ∧
    (main (prog :: filePath :: more) ParseFile).exitCode = 0 := by
  have hrun : main (prog :: filePath :: more) ParseFile =
      { stdout := [.parseError err], panicked := false } := by
    simp [main, hfail]
  rw [hrun]
  exact ⟨rfl, rfl, rfl⟩

/-- C12 (amended) at a concrete input: the run on the source that does not parse. -/
theorem C12_parse_failure_prints_error_only_witness :
    parseBroken "input.go" = .error "input.go:6:1: expected closing brace, found EOF" ∧
    main sampleArgs parseBroken =
      { stdout := [.parseError "input.go:6:1: expected closing brace, found EOF"]
        panicked := false } ∧
    (main sampleArgs parseBroken).documents = [] ∧
    (main sampleArgs parseBroken).exitCode = 0 :=
  ⟨rfl, C12_parse_failure_prints_error_only "main" "input.go" [] parseBroken _ rfl⟩

/-! ## The comment index: one text per line, the last comment wins -/

theorem GoMap.nodup_keys_set {K V : Type} [DecidableEq K] (m : GoMap K V) (k : K) (v : V)
    (h : (GoMap.keys m).Nodup) : (GoMap.keys (GoMap.set m k v)).Nodup := by
  rw [GoMap.keys_set]
  by_cases hk : k ∈ GoMap.keys m
  · simpa [hk] using h
  · simp only [hk, if_false]
    rw [List.nodup_append]
    refine ⟨h, List.nodup_singleton k, ?_⟩
    intro x hx hx'
    rw [List.mem_singleton] at hx'
    exact hk (hx' ▸ hx)

theorem GoMap.mem_keys_set {K V : Type} [DecidableEq K] (m : GoMap K V) (k k' : K) (v : V) :
    k' ∈ GoMap.keys (GoMap.set m k v) ↔ k' = k ∨ k' ∈ GoMap.keys m := by
  rw [GoMap.keys_set]
  by_cases hk : k ∈ GoMap.keys m
  · simp only [hk, if_true]
    constructor
    · exact Or.inr
    · rintro (h | h)
      · exact h ▸ hk
      · exact h
  · simp only [hk, if_false, List.mem_append, List.mem_singleton]
    tauto

theorem GoMap.find?_eq_none_iff {K V : Type} [DecidableEq K] (m : GoMap K V) (k : K) :
    GoMap.find? m k = none ↔ k ∉ GoMap.keys m := by
  induction m with
  | nil => simp [GoMap.find?, GoMap.keys]
  | cons e m ih =>
    obtain ⟨k0, v0⟩ := e
    simp only [GoMap.keys] at ih
    by_cases h : k0 = k
    · simp [GoMap.find?, GoMap.keys, h]
    · have h' : ¬ k = k0 := fun e => h e.symm
      simp [GoMap.find?, GoMap.keys, h, h', ih]

theorem mapCommentsGroup_append (fileSet : FileSet) (xs ys : List Comment)
    (comments : GoMap Nat String) :
    mapCommentsGroup fileSet (xs ++ ys) comments =
      mapCommentsGroup fileSet ys (mapCommentsGroup fileSet xs comments) := by
  induction xs generalizing comments with
  | nil => rfl
  | cons comment rest ih =>
    simp only [List.cons_append, mapCommentsGroup]
    exact ih _

/-- The two nested loops of `mapCommentsByLine` are one loop over the comments
in traversal order. -/
theorem mapCommentsGroups_eq (fileSet : FileSet) (groups : List CommentGroup)
    (comments : GoMap Nat String) :
    mapCommentsGroups fileSet groups comments =
      mapCommentsGroup fileSet (commentsInOrder groups) comments := by
  induction groups generalizing comments with
  | nil => rfl
  | cons group rest ih =>
    simp only [mapCommentsGroups, commentsInOrder, List.map_cons, List.flatten_cons,
      mapCommentsGroup_append]
    exact ih _

theorem mapCommentsGroup_nodup_keys (fileSet : FileSet) (cs : List Comment)
    (comments : GoMap Nat String) (h : (GoMap.keys comments).Nodup) :
    (GoMap.keys (mapCommentsGroup fileSet cs comments)).Nodup := by
  induction cs generalizing comments with
  | nil => exact h
  | cons comment rest ih =>
    simp only [mapCommentsGroup]
    exact ih _ (GoMap.nodup_keys_set _ _ _ h)

/-- After the loop the entry of a line is the text of the last comment that
starts on it, or the entry the line had before when no comment does. -/
theorem mapCommentsGroup_find? (fileSet : FileSet) (cs : List Comment)
    (comments : GoMap Nat String) (line : Nat) :
    GoMap.find? (mapCommentsGroup fileSet cs comments) line =
      (((cs.filter fun c => decide (fileSet.Line c.Slash = line)).getLast?.map
        fun c => TrimSpace (TrimPrefix c.Text "//")).or (GoMap.find? comments line)) := by
  induction cs generalizing comments with
  | nil => simp [mapCommentsGroup]
  | cons comment rest ih =>
    simp only [mapCommentsGroup]
    rw [ih, GoMap.find?_set]
    by_cases hc : fileSet.Line comment.Slash = line
    · rw [@List.filter_cons_of_pos _ (fun c => decide (fileSet.Line c.Slash = line)) comment rest
        (by simp [hc]), List.getLast?_cons]
      cases (List.filter (fun c => decide (fileSet.Line c.Slash = line)) rest).getLast? <;>
        simp [hc]
    · rw [@List.filter_cons_of_neg _ (fun c => decide (fileSet.Line c.Slash = line)) comment rest
        (by simp [hc])]
      simp [hc]

/-- The last element that passes a filter splits the list: it passes, and
nothing after it does. -/
theorem getLast?_filter_split {α : Type} (p : α → Bool) (l : List α) (x : α)
    (h : (l.filter p).getLast? = some x) :
    ∃ before after, l = before ++ x :: after ∧ p x = true ∧ ∀ c ∈ after, p c = false := by
  induction l with
  | nil => simp at h
  | cons a l ih =>
    cases hl : (l.filter p).getLast? with
    | some y =>
      have hx : x = y := by
        by_cases ha : p a = true
        · rw [List.filter_cons_of_pos ha, List.getLast?_cons, hl] at h
          simpa using h.symm
        · rw [List.filter_cons_of_neg ha, hl] at h
          simpa using h.symm
      subst hx
      obtain ⟨before, after, hsplit, hp, hafter⟩ := ih hl
      exact ⟨a :: before, after, by rw [hsplit]; rfl, hp, hafter⟩
    | none =>
      have hnil : l.filter p = [] := List.getLast?_eq_none_iff.1 hl
      have hall : ∀ c ∈ l, p c = false := by
        intro c hc
        cases hpc : p c with
        | false => rfl
        | true =>
          have : c ∈ l.filter p := List.mem_filter.2 ⟨hc, hpc⟩
          rw [hnil] at this
          simp at this
      by_cases ha : p a = true
      · rw [List.filter_cons_of_pos ha, hnil] at h
        simp only [List.getLast?_singleton, Option.some.injEq] at h
        subst h
        exact ⟨[], l, rfl, ha, hall⟩
      · rw [List.filter_cons_of_neg ha, hl] at h
        simp at h

/-- C13: the index `mapCommentsByLine` builds has at most one entry per line;
the entry of a line is the text, without a leading `//` and trimmed, of the
last comment starting on that line in traversal order (groups in list order,
comments in their order within a group); a line on which a comment starts has
such an entry, and a line on which no comment starts has none. -/
theorem C13_last_comment_wins (commentGroups : List CommentGroup) (fileSet : FileSet)
    (line : Nat) :
    (GoMap.keys (mapCommentsByLine commentGroups fileSet)).Nodup ∧
    GoMap.find? (mapCommentsByLine commentGroups fileSet) line =
      ((commentsInOrder commentGroups).filter
        fun c => decide (fileSet.Line c.Slash = line)).getLast?.map
        (fun c => TrimSpace (TrimPrefix c.Text "//")) ∧
    ((∃ c ∈ commentsInOrder commentGroups, fileSet.Line c.Slash = line) →
      ∃ before last after, commentsInOrder commentGroups = before ++ last :: after ∧
        fileSet.Line last.Slash = line ∧
        (∀ c ∈ after, fileSet.Line c.Slash ≠ line) ∧
        GoMap.find? (mapCommentsByLine commentGroups fileSet) line =
          some (TrimSpace (TrimPrefix last.Text "//"))) ∧
    ((∀ c ∈ commentsInOrder commentGroups, fileSet.Line c.Slash ≠ line) →
      GoMap.find? (mapCommentsByLine commentGroups fileSet) line = none ∧
      line ∉ GoMap.keys (mapCommentsByLine commentGroups fileSet)) := by
  have hfind : GoMap.find? (mapCommentsByLine commentGroups fileSet) line =
      ((commentsInOrder commentGroups).filter
        fun c => decide (fileSet.Line c.Slash = line)).getLast?.map
        (fun c => TrimSpace (TrimPrefix c.Text "//")) := by
    unfold mapCommentsByLine
    rw [mapCommentsGroups_eq, mapCommentsGroup_find?]
    simp [GoMap.empty, GoMap.find?]
  refine ⟨?_, hfind, ?_, ?_⟩
  · unfold mapCommentsByLine
    rw [mapCommentsGroups_eq]
    exact mapCommentsGroup_nodup_keys _ _ _ (by simp [GoMap.empty, GoMap.keys])
  · rintro ⟨c, hc, hline⟩
    cases hlast : ((commentsInOrder commentGroups).filter
        fun c => decide (fileSet.Line c.Slash = line)).getLast? with
    | none =>
      have hmem : c ∈ (commentsInOrder commentGroups).filter
          fun c => decide (fileSet.Line c.Slash = line) :=
        List.mem_filter.2 ⟨hc, by simp [hline]⟩
      rw [List.getLast?_eq_none_iff.1 hlast] at hmem
      simp at hmem
    | some last =>
      obtain ⟨before, after, hsplit, hp, hafter⟩ := getLast?_filter_split _ _ _ hlast
      refine ⟨before, last, after, hsplit, by simpa using hp, ?_, ?_⟩
      · intro c' hc'
        simpa using hafter c' hc'
      · rw [hfind, hlast]
        rfl
  · intro hnone
    have hnil : ((commentsInOrder commentGroups).filter
        fun c => decide (fileSet.Line c.Slash = line)) = [] := by
      rw [List.filter_eq_nil_iff]
      intro c hc
      simpa using hnone c hc
    have hn : GoMap.find? (mapCommentsByLine commentGroups fileSet) line = none := by
      rw [hfind, hnil]
      rfl
    exact ⟨hn, (GoMap.find?_eq_none_iff _ _).1 hn⟩

/-- C13 at a concrete input: line 6 of the sample `shapeFile` holds the
comments `/* old */` and `// factor`, and the index has `factor`, the text of
the later one, at line 6; line 7 holds no comment and has no entry. -/
theorem C13_last_comment_wins_witness :
    commentsInOrder shapeFile.Comments =
      [⟨62, "// c"⟩, ⟨84, "/* old */"⟩, ⟨94, "// factor"⟩] ∧
    shapeFileSet.Line 84 = 6 ∧ shapeFileSet.Line 94 = 6 ∧
    GoMap.find? (mapCommentsByLine shapeFile.Comments shapeFileSet) 6 = some "factor" ∧
    GoMap.find? (mapCommentsByLine shapeFile.Comments shapeFileSet) 7 = none ∧
    7 ∉ GoMap.keys (mapCommentsByLine shapeFile.Comments shapeFileSet) :=
  ⟨by decide, by decide, by decide,
    (C13_last_comment_wins shapeFile.Comments shapeFileSet 6).2.1.trans (by decide),
    (C13_last_comment_wins shapeFile.Comments shapeFileSet 7).2.2.2 (by decide)⟩

/-- C14 (failing input): in the sample `mailFile` the block comment
`/* raw bytes */` starts on line 15, next to the parameter `body`. The index
holds its text at line 15 with the comment markers still in place, so the
stored value begins with `/*`, and the description of `body` in the printed
schema is `/* raw bytes */`. -/
theorem C14_block_comment_keeps_marker :
    (⟨237, "/* raw bytes */"⟩ : Comment) ∈ commentsInOrder mailFile.Comments ∧
    mailFileSet.Line 237 = 15 ∧
    GoMap.find? (mapCommentsByLine mailFile.Comments mailFileSet) 15 =
      some "/* raw bytes */" ∧
    (stripPrefix "/* raw bytes */".data "/*".data).isSome = true ∧
    (main sampleArgs parseMail).documents.map
        (fun d => (GoMap.get d.Function.Parameters.Properties "body").Description) =
      ["/* raw bytes */", ""] := by
  decide

/-! ## The parameter loop, field by field -/

/-- The state right after the iteration of the parameter loop for the field at
index `j`: the loop on the fields up to `j` ends in it, the loop on the fields
after `j` continues from it, and it holds under the first name of the field
the property of that field. -/
theorem paramsLoop_after_field (fileSet : FileSet) (comments : GoMap Nat String)
    (params : List Field) (acc0 acc : Collected)
    (h : paramsLoop fileSet comments params acc0 = some acc)
    (j : Nat) (param : Field) (name0 : Ident)
    (hparam : params[j]? = some param) (hname : param.Names.head? = some name0) :
    ∃ accj, paramsLoop fileSet comments (params.take (j + 1)) acc0 = some accj ∧
      paramsLoop fileSet comments (params.drop (j + 1)) accj = some acc ∧
      GoMap.find? accj.parameters name0.Name =
        some { Typ := paramTypeToString param.Typ
               Description := comments.get (fileSet.Line name0.NamePos)
               Enum := [] } := by
  induction params generalizing j acc0 with
  | nil => simp at hparam
  | cons p0 rest ih =>
    obtain ⟨doc, names, typ⟩ := p0
    cases names with
    | nil => simp [paramsLoop] at h
    | cons n0 more =>
      simp only [paramsLoop, Field.Names_mk] at h
      cases j with
      | zero =>
        simp only [List.getElem?_cons_zero, Option.some.injEq] at hparam
        subst hparam
        simp only [Field.Names_mk, List.head?_cons, Option.some.injEq] at hname
        subst hname
        refine ⟨_, rfl, ?_, ?_⟩
        · simpa using h
        · simp [GoMap.find?_set]
      | succ i =>
        simp only [List.getElem?_cons_succ] at hparam
        obtain ⟨accj, htake, hdrop, hfind⟩ := ih _ h i hparam
        refine ⟨accj, ?_, ?_, hfind⟩
        · simpa only [List.take_succ_cons, paramsLoop, Field.Names_mk] using htake
        · simpa using hdrop

theorem paramsLoop_nodup_keys (fileSet : FileSet) (comments : GoMap Nat String)
    (params : List Field) (acc acc' : Collected)
    (h : paramsLoop fileSet comments params acc = some acc')
    (hacc : (GoMap.keys acc.parameters).Nodup) : (GoMap.keys acc'.parameters).Nodup := by
  induction params generalizing acc with
  | nil =>
    simp only [paramsLoop, Option.some.injEq] at h
    rw [← h]
    exact hacc
  | cons param rest ih =>
    obtain ⟨doc, names, typ⟩ := param
    cases names with
    | nil => simp [paramsLoop] at h
    | cons name0 more =>
      simp only [paramsLoop, Field.Names_mk] at h
      exact ih _ h (GoMap.nodup_keys_set _ _ _ hacc)

theorem paramsLoop_mem_keys (fileSet : FileSet) (comments : GoMap Nat String)
    (params : List Field) (acc acc' : Collected)
    (h : paramsLoop fileSet comments params acc = some acc') (k : String) :
    k ∈ GoMap.keys acc'.parameters ↔ k ∈ GoMap.keys acc.parameters ∨ k ∈ firstNames params := by
  induction params generalizing acc with
  | nil =>
    simp only [paramsLoop, Option.some.injEq] at h
    rw [← h]
    simp [firstNames]
  | cons param rest ih =>
    obtain ⟨doc, names, typ⟩ := param
    cases names with
    | nil => simp [paramsLoop] at h
    | cons name0 more =>
      simp only [paramsLoop, Field.Names_mk] at h
      rw [ih _ h, GoMap.mem_keys_set]
      simp only [firstNames, List.filterMap_cons, Field.Names_mk, List.head?_cons,
        Option.map_some', List.mem_cons]
      tauto

theorem firstNames_length (params : List Field) (h : ∀ param ∈ params, param.Names ≠ []) :
    (firstNames params).length = params.length := by
  induction params with
  | nil => rfl
  | cons param rest ih =>
    obtain ⟨doc, names, typ⟩ := param
    cases names with
    | nil => exact absurd rfl (h _ (List.mem_cons_self _ _))
    | cons name0 more =>
      have := ih fun p hp => h p (List.mem_cons_of_mem _ hp)
      simp only [firstNames] at this
      simp [firstNames, this]

theorem firstNames_getElem? (params : List Field) (h : ∀ param ∈ params, param.Names ≠ [])
    (j : Nat) :
    (firstNames params)[j]? = params[j]?.bind fun param => param.Names.head?.map Ident.Name := by
  induction params generalizing j with
  | nil => simp [firstNames]
  | cons param rest ih =>
    obtain ⟨doc, names, typ⟩ := param
    cases names with
    | nil => exact absurd rfl (h _ (List.mem_cons_self _ _))
    | cons name0 more =>
      have ih' := ih fun p hp => h p (List.mem_cons_of_mem _ hp)
      simp only [firstNames] at ih'
      cases j with
      | zero => simp [firstNames]
      | succ i => simpa [firstNames] using ih' i

/-! ## The order of `required`, parameters on one line, shared names -/

/-- C15: take the document at index `i` and the eligible method at index `i`.
All parameter fields of the method are named, and `required` is the list of
the first names of the fields in declaration order: one entry per field,
duplicates kept. The list is the same whatever file set, comment index and
starting properties map the parameter loop runs with. -/
theorem C15_required_in_declaration_order (prog filePath : String) (more : List String)
    (ParseFile : String → Except String (FileSet × File)) (fileSet : FileSet) (node : File)
    (hparse : ParseFile filePath = .ok (fileSet, node)) (i : Nat) (d : JSONSchema)
    (hd : (main (prog :: filePath :: more) ParseFile).documents[i]? = some d) :
    ∃ method, (eligibleMethods node)[i]? = some method ∧
      (∀ param ∈ methodParams method, param.Names ≠ []) ∧
      d.Function.Parameters.Required = firstNames (methodParams method) ∧
      d.Function.Parameters.Required.length = (methodParams method).length ∧
      (∀ j : Nat, d.Function.Parameters.Required[j]? =
        (methodParams method)[j]?.bind fun (param : Field) => param.Names.head?.map Ident.Name) ∧
      (∀ (fileSet' : FileSet) (comments' : GoMap Nat String)
          (start : GoMap String Property) (acc' : Collected),
        paramsLoop fileSet' comments' (methodParams method)
            { parameters := start, required := [] } = some acc' →
          acc'.required = d.Function.Parameters.Required) := by
  obtain ⟨method, hm, hb⟩ := main_getElem? prog filePath more ParseFile fileSet node hparse i d hd
  obtain ⟨-, acc, hacc, hs⟩ := methodBody_emit _ _ _ _ hb
  have hnamed : ∀ param ∈ methodParams method, param.Names ≠ [] := by
    intro param hp hnil
    have hnone := (paramsLoop_eq_none_iff fileSet (mapCommentsByLine node.Comments fileSet)
      (methodParams method) { parameters := GoMap.empty, required := [] }).2 ⟨param, hp, hnil⟩
    rw [hacc] at hnone
    simp at hnone
  have hreq : d.Function.Parameters.Required = firstNames (methodParams method) := by
    rw [hs]
    simpa using paramsLoop_required _ _ _ _ acc hacc
  refine ⟨method, hm, hnamed, hreq, ?_, ?_, ?_⟩
  · rw [hreq, firstNames_length _ hnamed]
  · intro j
    rw [hreq, firstNames_getElem? _ hnamed]
  · intro fileSet' comments' start acc' h'
    rw [hreq]
    simpa using paramsLoop_required _ _ _ _ acc' h'

/-- C15 at a concrete input: the schema of `Drop(_ int, _ []string)` of the
sample `shapeFile` has `required` equal to `["_", "_"]`, one entry per field. -/
theorem C15_required_in_declaration_order_witness :
    (main sampleArgs parseShape).documents[2]? = some dropSchema ∧
    dropSchema.Function.Parameters.Required = ["_", "_"] ∧
    ∃ method, (eligibleMethods shapeFile)[2]? = some method ∧
      (∀ param ∈ methodParams method, param.Names ≠ []) ∧
      dropSchema.Function.Parameters.Required = firstNames (methodParams method) ∧
      dropSchema.Function.Parameters.Required.length = (methodParams method).length ∧
      (∀ j : Nat, dropSchema.Function.Parameters.Required[j]? =
        (methodParams method)[j]?.bind fun (param : Field) => param.Names.head?.map Ident.Name) ∧
      (∀ (fileSet' : FileSet) (comments' : GoMap Nat String)
          (start : GoMap String Property) (acc' : Collected),
        paramsLoop fileSet' comments' (methodParams method)
            { parameters := start, required := [] } = some acc' →
          acc'.required = dropSchema.Function.Parameters.Required) :=
  ⟨by decide, by decide,
    C15_required_in_declaration_order "main" "input.go" [] parseShape shapeFileSet shapeFile rfl 2
      dropSchema (by decide)⟩

/-- C16 (counterexample): in `Mix(_ int, b int, _ string)` the fields `_ int`
and `b int` both start on line 4, where the index holds `one`, and the field
`_ string` starts on line 5, where it holds `two`. In the printed schema the
property `_` has the description `two` and the property `b` the description
`one`: the later field of the same name has replaced the entry of `_`. -/
theorem C16_later_field_replaces_description :
    eligibleMethods overFile = [mixMethod] ∧
    overFileSet.Line 42 = 4 ∧ overFileSet.Line 49 = 4 ∧ overFileSet.Line 65 = 5 ∧
    GoMap.find? (mapCommentsByLine overFile.Comments overFileSet) 4 = some "one" ∧
    (main sampleArgs parseOver).documents.map
        (fun d => GoMap.find? d.Function.Parameters.Properties "_") =
      [some { Typ := "string", Description := "two", Enum := [] }] ∧
    (main sampleArgs parseOver).documents.map
        (fun d => GoMap.find? d.Function.Parameters.Properties "b") =
      [some { Typ := "int", Description := "one", Enum := [] }] ∧
    ∀ d ∈ (main sampleArgs parseOver).documents,
      (GoMap.get d.Function.Parameters.Properties "_").Description ≠
        (GoMap.get d.Function.Parameters.Properties "b").Description :=
  ⟨rfl, by decide, by decide, by decide, by decide, by decide, by decide, by decide⟩

/-- C16 (amended): take the document at index `i` and the eligible method at
index `i`, and two of its parameter fields whose positions are on the same
line and whose first names no later field of the method declares again. In
the printed schema each of the two has a property under its first name, and
the two descriptions are identical: both are the one text indexed at that
line. -/
theorem C16_same_line_same_description (prog filePath : String) (more : List String)
    (ParseFile : String → Except String (FileSet × File)) (fileSet : FileSet) (node : File)
    (hparse : ParseFile filePath = .ok (fileSet, node)) (i : Nat) (d : JSONSchema)
    (hd : (main (prog :: filePath :: more) ParseFile).documents[i]? = some d) :
    ∃ method, (eligibleMethods node)[i]? = some method ∧
      ∀ (j k : Nat) (p q : Field) (np nq : Ident),
        (methodParams method)[j]? = some p → p.Names.head? = some np →
        (methodParams method)[k]? = some q → q.Names.head? = some nq →
        np.Name ∉ firstNames ((methodParams method).drop (j + 1)) →
        nq.Name ∉ firstNames ((methodParams method).drop (k + 1)) →
        fileSet.Line np.NamePos = fileSet.Line nq.NamePos →
        ∃ propp propq,
          GoMap.find? d.Function.Parameters.Properties np.Name = some propp ∧
          GoMap.find? d.Function.Parameters.Properties nq.Name = some propq ∧
          propp.Description =
            (mapCommentsByLine node.Comments fileSet).get (fileSet.Line np.NamePos) ∧
          propq.Description =
            (mapCommentsByLine node.Comments fileSet).get (fileSet.Line np.NamePos) ∧
          propp.Description = propq.Description := by
  obtain ⟨method, hm, hb⟩ := main_getElem? prog filePath more ParseFile fileSet node hparse i d hd
  obtain ⟨-, acc, hacc, hs⟩ := methodBody_emit _ _ _ _ hb
  refine ⟨method, hm, ?_⟩
  intro j k p q np nq hp hnp hq hnq hlastp hlastq hline
  obtain ⟨accp, -, hdp, hfp⟩ := paramsLoop_after_field _ _ _ _ acc hacc j p np hp hnp
  obtain ⟨accq, -, hdq, hfq⟩ := paramsLoop_after_field _ _ _ _ acc hacc k q nq hq hnq
  have hp' := (paramsLoop_find?_of_not_mem _ _ _ accp acc hdp _ hlastp).trans hfp
  have hq' := (paramsLoop_find?_of_not_mem _ _ _ accq acc hdq _ hlastq).trans hfq
  refine ⟨_, _, by rw [hs]; exact hp', by rw [hs]; exact hq', rfl, ?_, ?_⟩
  · simp only [hline]
  · simp only [hline]

/-- C16 (amended) at a concrete input: for the one-line signature
`Move(a int, b string) // c` of the sample `shapeFile` both `a` and `b` have
the description `c` in the printed schema. -/
theorem C16_same_line_same_description_witness :
    (main sampleArgs parseShape).documents[0]? = some moveSchema ∧
    (eligibleMethods shapeFile)[0]? = some moveMethod ∧
    shapeFileSet.Line 45 = 4 ∧ shapeFileSet.Line 52 = 4 ∧
    GoMap.find? (mapCommentsByLine shapeFile.Comments shapeFileSet) 4 = some "c" ∧
    GoMap.find? moveSchema.Function.Parameters.Properties "a" =
      some { Typ := "int", Description := "c", Enum := [] } ∧
    GoMap.find? moveSchema.Function.Parameters.Properties "b" =
      some { Typ := "string", Description := "c", Enum := [] } ∧
    ∃ method, (eligibleMethods shapeFile)[0]? = some method ∧
      ∀ (j k : Nat) (p q : Field) (np nq : Ident),
        (methodParams method)[j]? = some p → p.Names.head? = some np →
        (methodParams method)[k]? = some q → q.Names.head? = some nq →
        np.Name ∉ firstNames ((methodParams method).drop (j + 1)) →
        nq.Name ∉ firstNames ((methodParams method).drop (k + 1)) →
        shapeFileSet.Line np.NamePos = shapeFileSet.Line nq.NamePos →
        ∃ propp propq,
          GoMap.find? moveSchema.Function.Parameters.Properties np.Name = some propp ∧
          GoMap.find? moveSchema.Function.Parameters.Properties nq.Name = some propq ∧
          propp.Description =
            (mapCommentsByLine shapeFile.Comments shapeFileSet).get
              (shapeFileSet.Line np.NamePos) ∧
          propq.Description =
            (mapCommentsByLine shapeFile.Comments shapeFileSet).get
              (shapeFileSet.Line np.NamePos) ∧
          propp.Description = propq.Description :=
  ⟨by decide, rfl, by decide, by decide, by decide, by decide, by decide,
    C16_same_line_same_description "main" "input.go" [] parseShape shapeFileSet shapeFile rfl 0
      moveSchema (by decide)⟩

/-- A list without duplicates that has the members of `l` is as long as `l`
at most, and as long as `l` exactly when `l` has no duplicates. -/
theorem length_of_nodup_same_members (keys l : List String) (hkeys : keys.Nodup)
    (hmem : ∀ k, k ∈ keys ↔ k ∈ l) :
    keys.length ≤ l.length ∧ (keys.length = l.length ↔ l.Nodup) := by
  have hperm : keys.Perm l.dedup :=
    (List.perm_ext_iff_of_nodup hkeys (List.nodup_dedup l)).2
      fun k => (hmem k).trans List.mem_dedup.symm
  have hlen : keys.length = l.dedup.length := hperm.length_eq
  refine ⟨hlen ▸ (List.dedup_sublist l).length_le, ?_, ?_⟩
  · intro h
    have hd : l.dedup = l := (List.dedup_sublist l).eq_of_length (hlen ▸ h)
    exact List.dedup_eq_self.1 hd
  · intro h
    rw [hlen, List.dedup_eq_self.2 h]

/-- C17: an eligible method whose parameter fields are all named gets a
schema. Its `properties` have one entry per name, for exactly the names in
`required`; `required` lists the first name of every field, once per field;
so `properties` has at most as many keys as `required` has entries, and as
many exactly when the first names are pairwise distinct. The entry of a name
carries the type and the description of the last field that declares it. -/
theorem C17_properties_and_required (fileSet : FileSet) (comments : GoMap Nat String)
    (method : Field) (heligible : isEligible method = true)
    (hnamed : ∀ param ∈ methodParams method, param.Names ≠ []) :
    ∃ d, methodBody fileSet comments method = .emit d ∧
      (GoMap.keys d.Function.Parameters.Properties).Nodup ∧
      (∀ k, k ∈ GoMap.keys d.Function.Parameters.Properties ↔
        k ∈ d.Function.Parameters.Required) ∧
      d.Function.Parameters.Required = firstNames (methodParams method) ∧
      d.Function.Parameters.Required.length = (methodParams method).length ∧
      (GoMap.keys d.Function.Parameters.Properties).length ≤
        d.Function.Parameters.Required.length ∧
      ((GoMap.keys d.Function.Parameters.Properties).length =
          d.Function.Parameters.Required.length ↔
        (firstNames (methodParams method)).Nodup) ∧
      (∀ (j : Nat) (param : Field) (name0 : Ident),
        (methodParams method)[j]? = some param → param.Names.head? = some name0 →
        name0.Name ∉ firstNames ((methodParams method).drop (j + 1)) →
        GoMap.find? d.Function.Parameters.Properties name0.Name =
          some { Typ := paramTypeToString param.Typ
                 Description := comments.get (fileSet.Line name0.NamePos)
                 Enum := [] }) := by
  obtain ⟨acc, hacc⟩ := paramsLoop_isSome fileSet comments (methodParams method)
    { parameters := GoMap.empty, required := [] } hnamed
  have hne : methodBody fileSet comments method ≠ .skip := by
    intro hskip
    rw [(methodBody_skip_iff fileSet comments method).1 hskip] at heligible
    simp at heligible
  have hnp : methodBody fileSet comments method ≠ .panic := by
    intro hpanic
    obtain ⟨-, param, hp, hnil⟩ := (methodBody_panic_iff fileSet comments method).1 hpanic
    exact hnamed param hp hnil
  cases hb : methodBody fileSet comments method with
  | skip => exact absurd hb hne
  | panic => exact absurd hb hnp
  | emit d =>
    obtain ⟨-, acc', hacc', hs⟩ := methodBody_emit _ _ _ _ hb
    rw [hacc] at hacc'
    simp only [Option.some.injEq] at hacc'
    subst hacc'
    have hreq : acc.required = firstNames (methodParams method) := by
      simpa using paramsLoop_required _ _ _ _ acc hacc
    have hnodup : (GoMap.keys acc.parameters).Nodup :=
      paramsLoop_nodup_keys _ _ _ _ acc hacc (by simp [GoMap.empty, GoMap.keys])
    have hmem : ∀ k, k ∈ GoMap.keys acc.parameters ↔ k ∈ firstNames (methodParams method) := by
      intro k
      rw [paramsLoop_mem_keys _ _ _ _ acc hacc k]
      simp [GoMap.empty, GoMap.keys]
    have hlen := length_of_nodup_same_members _ _ hnodup hmem
    subst hs
    refine ⟨_, rfl, hnodup, ?_, hreq, ?_, ?_, ?_, ?_⟩
    · intro k
      simp only [hreq]
      exact hmem k
    · simp only [hreq]
      exact firstNames_length _ hnamed
    · simp only [hreq]
      exact hlen.1
    · simp only [hreq]
      exact hlen.2
    · intro j param name0 hparam hname hlast
      obtain ⟨accj, -, hdrop, hfind⟩ :=
        paramsLoop_after_field _ _ _ _ acc hacc j param name0 hparam hname
      show GoMap.find? acc.parameters name0.Name = _
      rw [paramsLoop_find?_of_not_mem _ _ _ accj acc hdrop _ hlast, hfind]

/-- C17 at a concrete input: the schema of `Drop(_ int, _ []string)` of the
sample `shapeFile` has the single property `_`, of type `array` as the later
field has it, while `required` is `["_", "_"]`: one key, two entries. -/
theorem C17_properties_and_required_witness :
    isEligible dropMethod = true ∧
    (∀ param ∈ methodParams dropMethod, param.Names ≠ []) ∧
    methodBody shapeFileSet (mapCommentsByLine shapeFile.Comments shapeFileSet) dropMethod =
      .emit dropSchema ∧
    GoMap.keys dropSchema.Function.Parameters.Properties = ["_"] ∧
    dropSchema.Function.Parameters.Required = ["_", "_"] ∧
    GoMap.find? dropSchema.Function.Parameters.Properties "_" =
      some { Typ := "array", Description := "", Enum := [] } ∧
    ¬ (firstNames (methodParams dropMethod)).Nodup ∧
    ∃ d, methodBody shapeFileSet (mapCommentsByLine shapeFile.Comments shapeFileSet)
        dropMethod = .emit d ∧
      (GoMap.keys d.Function.Parameters.Properties).Nodup ∧
      (∀ k, k ∈ GoMap.keys d.Function.Parameters.Properties ↔
        k ∈ d.Function.Parameters.Required) ∧
      d.Function.Parameters.Required = firstNames (methodParams dropMethod) ∧
      d.Function.Parameters.Required.length = (methodParams dropMethod).length ∧
      (GoMap.keys d.Function.Parameters.Properties).length ≤
        d.Function.Parameters.Required.length ∧
      ((GoMap.keys d.Function.Parameters.Properties).length =
          d.Function.Parameters.Required.length ↔
        (firstNames (methodParams dropMethod)).Nodup) ∧
      (∀ (j : Nat) (param : Field) (name0 : Ident),
        (methodParams dropMethod)[j]? = some param → param.Names.head? = some name0 →
        name0.Name ∉ firstNames ((methodParams dropMethod).drop (j + 1)) →
        GoMap.find? d.Function.Parameters.Properties name0.Name =
          some { Typ := paramTypeToString param.Typ
                 Description :=
                   (mapCommentsByLine shapeFile.Comments shapeFileSet).get
                     (shapeFileSet.Line name0.NamePos)
                 Enum := [] }) :=
  ⟨by decide, by decide, by decide, by decide, by decide, by decide, by decide,
    C17_properties_and_required shapeFileSet
      (mapCommentsByLine shapeFile.Comments shapeFileSet) dropMethod (by decide) (by decide)⟩

end InterfaceJsonSchema
